import Mathlib

/-!
Verification development for the subtitle merge engine.

The sources modelled here are `merge-subtitles.py` (reader, scoring,
matcher, resolver) and the TXT writer of `extract-whisper-subtitles.py`.
Python floats are modelled as exact rationals (`ℚ`), Python dicts as
structures, and Python's `difflib.SequenceMatcher` ratio as the
Ratcliff/Obershelp match count it computes (autojunk is irrelevant for
the short single-utterance segments this engine is tuned for).  Sets of
used indices are modelled as lists consulted only through membership,
exactly how the Python set is used.
-/

/-! ## Character-level helpers (Python string primitives) -/

/-- ASCII whitespace recognised by Python `str.strip`. -/
def isPySpace (c : Char) : Bool :=
  c = ' ' || c = '\t' || c = '\n' || c = '\r' || c = '\x0b' || c = '\x0c'

/-- Python `str.strip`: drop leading and trailing whitespace. -/
def pyStrip (l : List Char) : List Char :=
  ((l.dropWhile isPySpace).reverse.dropWhile isPySpace).reverse

/-- Python `str.split` on a single separator character: `''.split` gives
one empty field, and every separator occurrence opens a new field. -/
def pySplit (sep : Char) : List Char → List (List Char)
  | [] => [[]]
  | c :: rest =>
    match pySplit sep rest with
    | [] => [[c]]
    | g :: gs => if c = sep then [] :: g :: gs else (c :: g) :: gs

/-! ## difflib.SequenceMatcher ratio (Ratcliff/Obershelp) -/

/-- Length of the longest common prefix of two character lists. -/
def commonLen : List Char → List Char → Nat
  | a :: as, b :: bs => if a = b then commonLen as bs + 1 else 0
  | _, _ => 0

/-- One candidate step of the longest-matching-block search: a strictly
longer block replaces the current best, so the earliest block (smallest
`i`, then smallest `j`) among the longest is kept, mirroring
`difflib.SequenceMatcher.find_longest_match` tie-breaking. -/
def bestStep (a b : List Char) (acc : Nat × Nat × Nat) (ij : Nat × Nat) :
    Nat × Nat × Nat :=
  let k := commonLen (a.drop ij.1) (b.drop ij.2)
  if acc.2.2 < k then (ij.1, ij.2, k) else acc

/-- Longest matching block `(i, j, k)` of two character lists:
`a.drop i` and `b.drop j` share a common prefix of length `k`, `k`
maximal, ties broken towards the smallest `i`, then the smallest `j`. -/
def bestMatch (a b : List Char) : Nat × Nat × Nat :=
  (List.range a.length).foldl
    (fun acc i =>
      (List.range b.length).foldl (fun acc2 j => bestStep a b acc2 (i, j)) acc)
    (0, 0, 0)

/-- Total number of matched characters reported by
`SequenceMatcher.get_matching_blocks`: take the longest matching block
and recurse on the pieces to its left and to its right.  The fuel
argument makes the recursion structural; `a.length + b.length` fuel is
always enough. -/
def ratioMatches : Nat → List Char → List Char → Nat
  | 0, _, _ => 0
  | fuel + 1, a, b =>
    let r := bestMatch a b
    if r.2.2 = 0 then 0
    else
      r.2.2 + ratioMatches fuel (a.take r.1) (b.take r.2.1) +
        ratioMatches fuel (a.drop (r.1 + r.2.2)) (b.drop (r.2.1 + r.2.2))

/-- Matched-character count of `difflib.SequenceMatcher(None, a, b)`. -/
def matchesSM (a b : List Char) : Nat :=
  ratioMatches (a.length + b.length) a b

/-- The value `SequenceMatcher.ratio()` returns: `2 * M / T` with `M`
the matched-character count and `T` the total length. -/
def ratioSM (a b : List Char) : ℚ :=
  2 * (matchesSM a b : ℚ) / ((a.length : ℚ) + (b.length : ℚ))

/-- Normalisation applied by `calculate_text_similarity`:
`text.replace(' ', '').strip()`. -/
def pyNormalize (s : String) : List Char :=
  pyStrip (s.data.filter (fun c => c != ' '))

/-- Embedding of `calculate_text_similarity` (merge-subtitles.py,
lines 60-70): normalise both texts, return 0.0 when either is empty,
otherwise the SequenceMatcher ratio. -/
def calculate_text_similarity (text1 text2 : String) : ℚ :=
  let t1 := pyNormalize text1
  let t2 := pyNormalize text2
  if t1 = [] ∨ t2 = [] then 0 else ratioSM t1 t2

/-! ## Data model -/

/-- Canonical subtitle record built by `read_subtitle_file`: the Python
dict `{'index', 'start', 'end', 'text', 'line_num'}`.  The `end` field
is called `stop` because `end` is a reserved word in Lean. -/
structure Subtitle where
  index : Int
  start : ℚ
  stop : ℚ
  text : String
  line_num : Nat
deriving DecidableEq

/-- Merged output record built by `merge_subtitles`: the Python dict
`{'index', 'start', 'end', 'text', 'source', 'match_score',
'whisper_text', 'manual_text'}`. -/
structure MergedSub where
  index : Int
  start : ℚ
  stop : ℚ
  text : String
  source : String
  match_score : ℚ
  whisper_text : Option String
  manual_text : Option String
deriving DecidableEq

/-- The `merge_stats` dictionary of `merge_subtitles`. -/
structure Stats where
  perfect_match : Nat
  fuzzy_match : Nat
  whisper_only : Nat
  manual_only : Nat
deriving DecidableEq

/-! ## Policy constants (merge-subtitles.py, lines 16-18) -/

def PREFER_MANUAL_TEXT : Bool := true

def PREFER_WHISPER_TIMING : Bool := true

def SIMILARITY_THRESHOLD : ℚ := 6/10

/-! ## Scoring and matcher -/

/-- Time proximity score computed inside `find_best_match`:
`max(0, 1 - |whisper.start - manual.start| / 5.0)`. -/
def time_score (w m : Subtitle) : ℚ :=
  max 0 (1 - |w.start - m.start| / 5)

/-- Text similarity of two entries, as `find_best_match` computes it. -/
def text_score (w m : Subtitle) : ℚ :=
  calculate_text_similarity w.text m.text

/-- Combined score computed inside `find_best_match`:
`text_sim * 0.7 + time_score * 0.3`. -/
def combined_score (w m : Subtitle) : ℚ :=
  text_score w m * (7/10) + time_score w m * (3/10)

/-- The `for manual_sub in manual_subs` loop of `find_best_match`:
skip entries whose index is already used, keep a candidate only when its
combined score strictly beats the current best and reaches the
similarity threshold. -/
def fbLoop (w : Subtitle) (used : List Int) :
    List Subtitle → Option Subtitle × ℚ → Option Subtitle × ℚ
  | [], best => best
  | m :: rest, best =>
    if m.index ∈ used then fbLoop w used rest best
    else
      let cs := combined_score w m
      if best.2 < cs ∧ SIMILARITY_THRESHOLD ≤ cs then
        fbLoop w used rest (some m, cs)
      else fbLoop w used rest best

/-- Embedding of `find_best_match` (merge-subtitles.py, lines 73-100). -/
def find_best_match (whisper_sub : Subtitle) (manual_subs : List Subtitle)
    (used_indices : List Int) : Option Subtitle × ℚ :=
  fbLoop whisper_sub used_indices manual_subs (none, 0)

/-! ## Merge (merge-subtitles.py, lines 103-179) -/

/-- One iteration of the `for w_sub in whisper_subs` loop of
`merge_subtitles`: state is `(merged, used_manual_indices, merge_stats)`. -/
def matchStep (manual_subs : List Subtitle)
    (acc : List MergedSub × List Int × Stats) (w_sub : Subtitle) :
    List MergedSub × List Int × Stats :=
  match acc with
  | (merged, used, stats) =>
    match find_best_match w_sub manual_subs used with
    | (some manual_match, score) =>
      (merged ++ [{ index := (merged.length : Int) + 1
                    start := if PREFER_WHISPER_TIMING then w_sub.start else manual_match.start
                    stop := if PREFER_WHISPER_TIMING then w_sub.stop else manual_match.stop
                    text := if PREFER_MANUAL_TEXT then manual_match.text else w_sub.text
                    source := "merged"
                    match_score := score
                    whisper_text := some w_sub.text
                    manual_text := some manual_match.text }],
       manual_match.index :: used,
       if 9/10 < score then { stats with perfect_match := stats.perfect_match + 1 }
       else { stats with fuzzy_match := stats.fuzzy_match + 1 })
    | (none, _) =>
      (merged ++ [{ index := (merged.length : Int) + 1
                    start := w_sub.start
                    stop := w_sub.stop
                    text := w_sub.text
                    source := "whisper_only"
                    match_score := 0
                    whisper_text := some w_sub.text
                    manual_text := none }],
       used,
       { stats with whisper_only := stats.whisper_only + 1 })

/-- One iteration of the `for m_sub in manual_subs` loop appending the
unmatched manual subtitles. -/
def manualStep (acc : List MergedSub × List Int × Stats) (m_sub : Subtitle) :
    List MergedSub × List Int × Stats :=
  match acc with
  | (merged, used, stats) =>
    if m_sub.index ∈ used then (merged, used, stats)
    else
      (merged ++ [{ index := (merged.length : Int) + 1
                    start := m_sub.start
                    stop := m_sub.stop
                    text := m_sub.text
                    source := "manual_only"
                    match_score := 0
                    whisper_text := none
                    manual_text := some m_sub.text }],
       used,
       { stats with manual_only := stats.manual_only + 1 })

/-- State of `merge_subtitles` after both loops, before the final sort
and re-index: the unordered merged list, the used-index set and the
statistics. -/
def merge_state (whisper_subs manual_subs : List Subtitle) :
    List MergedSub × List Int × Stats :=
  manual_subs.foldl manualStep
    (whisper_subs.foldl (matchStep manual_subs) ([], [], ⟨0, 0, 0, 0⟩))

/-- Stable insertion of one record into a list sorted by `start`:
the new record goes after every record whose `start` is not larger. -/
def insertByStart (x : MergedSub) : List MergedSub → List MergedSub
  | [] => [x]
  | y :: ys => if y.start ≤ x.start then y :: insertByStart x ys else x :: y :: ys

/-- Python's stable `list.sort(key=lambda x: x['start'])`, modelled as a
stable insertion sort (any stable sort computes the same list). -/
def sortByStart (l : List MergedSub) : List MergedSub :=
  l.foldl (fun acc x => insertByStart x acc) []

/-- The re-index loop `for i, sub in enumerate(merged, 1)`. -/
def reindexFrom : Int → List MergedSub → List MergedSub
  | _, [] => []
  | n, s :: rest => { s with index := n } :: reindexFrom (n + 1) rest

/-- Embedding of `merge_subtitles` (merge-subtitles.py, lines 103-179):
match every whisper subtitle, append unmatched manual subtitles, sort by
start time, re-index from 1. -/
def merge_subtitles (whisper_subs manual_subs : List Subtitle) :
    List MergedSub × Stats :=
  match merge_state whisper_subs manual_subs with
  | (merged, _, stats) => (reindexFrom 1 (sortByStart merged), stats)

/-- Validity of a best-block candidate: the block fits inside both lists. -/
def BlockValid (a b : List Char) (r : Nat × Nat × Nat) : Prop :=
  r.1 + r.2.2 ≤ a.length ∧ r.2.1 + r.2.2 ≤ b.length

/-! ## Closed form of find_best_match

`cfB` recomputes the result of the `find_best_match` loop by structural
recursion from the tail: among the eligible candidates it keeps the
first one whose score reaches the threshold and is at least every later
eligible score. -/

/-- Closed-form recomputation of the `find_best_match` loop. -/
def cfB (w : Subtitle) (used : List Int) : List Subtitle → Option Subtitle × ℚ
  | [] => (none, 0)
  | m :: rest =>
    if m.index ∈ used then cfB w used rest
    else if SIMILARITY_THRESHOLD ≤ combined_score w m ∧
        (cfB w used rest).2 ≤ combined_score w m then
      (some m, combined_score w m)
    else cfB w used rest

/-! ## Spec-side matcher (refinement target for claim C1)

These definitions follow the specification's words, not the code: for
each machine entry, select the not-yet-consumed human entry with the
highest combined score (first encountered wins ties), accept it only at
or above the threshold, mark the selected entry itself (by its position)
consumed, and turn every never-consumed human entry into an
unmatched-human result at the end. -/

/-- Spec-side selection over plain entries: the first candidate whose
score reaches the threshold and is at least every candidate's score. -/
def specPick (w : Subtitle) (l : List Subtitle) : Option Subtitle :=
  l.find? (fun m =>
    decide (SIMILARITY_THRESHOLD ≤ combined_score w m) &&
    l.all (fun m2 => decide (combined_score w m2 ≤ combined_score w m)))

/-- Spec-side selection over position-tagged candidates. -/
def spec_accept (w : Subtitle) (cands : List (Nat × Subtitle)) :
    Option (Nat × Subtitle) :=
  cands.find? (fun c =>
    decide (SIMILARITY_THRESHOLD ≤ combined_score w c.2) &&
    cands.all (fun c2 => decide (combined_score w c2.2 ≤ combined_score w c.2)))

/-- Spec-side match result: a paired machine/human entry with its score,
an unmatched machine entry, or an unmatched human entry. -/
inductive SMatch where
  | paired (w m : Subtitle) (score : ℚ) : SMatch
  | machineOnly (w : Subtitle) : SMatch
  | humanOnly (m : Subtitle) : SMatch
deriving DecidableEq

/-- Spec-side matching loop: machine entries in order, candidates are
the not-yet-consumed human entries tagged with their original position;
the accepted candidate is removed by position. -/
def spec_match_go (cands : List (Nat × Subtitle)) :
    List Subtitle → List SMatch × List (Nat × Subtitle)
  | [] => ([], cands)
  | w :: rest =>
    match spec_accept w cands with
    | some c =>
      let r := spec_match_go (cands.filter (fun c2 => decide (c2.1 ≠ c.1))) rest
      (SMatch.paired w c.2 (combined_score w c.2) :: r.1, r.2)
    | none =>
      let r := spec_match_go cands rest
      (SMatch.machineOnly w :: r.1, r.2)

/-- Spec-side matcher: match all machine entries, then append the
never-consumed human entries as unmatched-human results. -/
def spec_match (whisper_subs manual_subs : List Subtitle) : List SMatch :=
  match spec_match_go manual_subs.enum whisper_subs with
  | (rs, rem) => rs ++ rem.map (fun c => SMatch.humanOnly c.2)

/-! ## Rendering spec-side results into the code's records -/

/-- The merged record the resolver builds for one spec-side match
result, given the record's sequence number. -/
def renderOne (n : Int) : SMatch → MergedSub
  | .paired w m s =>
    { index := n
      start := if PREFER_WHISPER_TIMING then w.start else m.start
      stop := if PREFER_WHISPER_TIMING then w.stop else m.stop
      text := if PREFER_MANUAL_TEXT then m.text else w.text
      source := "merged"
      match_score := s
      whisper_text := some w.text
      manual_text := some m.text }
  | .machineOnly w =>
    { index := n
      start := w.start
      stop := w.stop
      text := w.text
      source := "whisper_only"
      match_score := 0
      whisper_text := some w.text
      manual_text := none }
  | .humanOnly m =>
    { index := n
      start := m.start
      stop := m.stop
      text := m.text
      source := "manual_only"
      match_score := 0
      whisper_text := none
      manual_text := some m.text }

/-- Render a run of spec-side results with consecutive sequence numbers. -/
def renderFrom (n : Int) : List SMatch → List MergedSub
  | [] => []
  | r :: rs => renderOne n r :: renderFrom (n + 1) rs

/-- Indices of the human entries consumed by paired results, in order. -/
def consumedOf : List SMatch → List Int
  | [] => []
  | .paired _ m _ :: rs => m.index :: consumedOf rs
  | .machineOnly _ :: rs => consumedOf rs
  | .humanOnly _ :: rs => consumedOf rs

/-- A paired result counted as a perfect match (score above 0.9). -/
def isPairedPerfect : SMatch → Bool
  | .paired _ _ s => decide (9/10 < s)
  | _ => false

/-- A paired result counted as a fuzzy match (score at most 0.9). -/
def isPairedFuzzy : SMatch → Bool
  | .paired _ _ s => decide (s ≤ 9/10)
  | _ => false

/-- An unmatched-machine result. -/
def isMachineOnly : SMatch → Bool
  | .machineOnly _ => true
  | _ => false

/-! ## Re-indexing -/

/-- A merged record with its index field cleared, for statements about
everything except the reassigned index. -/
def stripIdx (e : MergedSub) : MergedSub := { e with index := 0 }

/-! ## Reader (merge-subtitles.py, lines 21-57)

The input is modelled as `Option (List String)`: `none` is a missing
file, `some lines` the file's lines.  `pyInt` / `pyFloat` model
Python `int()` / `float()` on plain decimal literals (the formats the
pipeline writes); any other string raises in Python and yields `none`
here, which the reader turns into a skipped line either way. -/

/-- Numeric value of a digit string (most significant first). -/
def natVal (l : List Char) : Nat :=
  l.foldl (fun a c => a * 10 + (c.toNat - 48)) 0

/-- All-digit strings parse; anything else fails. -/
def digitsToNat (l : List Char) : Option Nat :=
  if l.isEmpty then none
  else if l.all Char.isDigit then some (natVal l) else none

/-- Python `int()` on a stripped field: optional sign, then digits. -/
def pyInt : List Char → Option Int
  | '-' :: body => (digitsToNat body).map (fun n => -(n : Int))
  | '+' :: body => (digitsToNat body).map (fun n => (n : Int))
  | s => (digitsToNat s).map (fun n => (n : Int))

/-- Unsigned part of Python `float()`: digits, an optional point, and
fractional digits, with at least one digit overall. -/
def pyFloatCore (body : List Char) : Option ℚ :=
  match body.dropWhile Char.isDigit with
  | [] =>
    if (body.takeWhile Char.isDigit).isEmpty then none
    else some ((natVal (body.takeWhile Char.isDigit) : ℚ))
  | '.' :: fr =>
    if fr.all Char.isDigit &&
        (!(body.takeWhile Char.isDigit).isEmpty || !fr.isEmpty) then
      some ((natVal (body.takeWhile Char.isDigit) : ℚ) +
        (natVal fr : ℚ) / (10 : ℚ) ^ fr.length)
    else none
  | _ => none

/-- Python `float()` on a stripped field: optional sign, then the
unsigned decimal literal. -/
def pyFloat : List Char → Option ℚ
  | '-' :: body => (pyFloatCore body).map Neg.neg
  | '+' :: body => pyFloatCore body
  | s => pyFloatCore s

/-- The body of the reader loop for one line: strip it, skip blank and
comment lines, split on the pipe, require at least four fields, parse
index and timings, and keep the fourth field as the text. -/
def parseLine (line : String) : Option (Int × ℚ × ℚ × String) :=
  let l := pyStrip line.data
  if l = [] then none
  else if l.head? = some '#' then none
  else
    let parts := (pySplit '|' l).map pyStrip
    if parts.length < 4 then none
    else
      match pyInt (parts.getD 0 []), pyFloat (parts.getD 1 []),
          pyFloat (parts.getD 2 []) with
      | some i, some s, some e => some (i, s, e, String.mk (parts.getD 3 []))
      | _, _, _ => none

/-- The `for line_num, line in enumerate(f, start=1)` loop. -/
def readLoop : List String → Nat → List Subtitle
  | [], _ => []
  | line :: rest, n =>
    match parseLine line with
    | some (i, s, e, t) => ⟨i, s, e, t, n⟩ :: readLoop rest (n + 1)
    | none => readLoop rest (n + 1)

/-- Embedding of `read_subtitle_file` (merge-subtitles.py, lines 21-57):
a missing file yields the empty list, otherwise every line is parsed
independently and the failures are skipped. -/
def read_subtitle_file : Option (List String) → List Subtitle
  | none => []
  | some lines => readLoop lines 1

/-- The fields of an entry apart from its source line number. -/
def coreOf (s : Subtitle) : Int × ℚ × ℚ × String :=
  (s.index, s.start, s.stop, s.text)

/-! ## Top-level selection in main (merge-subtitles.py, lines 248-262) -/

/-- Outcome of main's source selection: no inputs at all, a raw
pass-through of one origin's entries (note: plain `Subtitle` records,
which carry no provenance tag), or a genuine merge. -/
inductive MergeOutcome where
  | noFiles : MergeOutcome
  | passThrough (entries : List Subtitle) (stats : Stats) : MergeOutcome
  | mergedTracks (track : List MergedSub) (stats : Stats) : MergeOutcome
deriving DecidableEq

/-- Embedding of the branch structure of `main` that decides what the
final track is (merge-subtitles.py, lines 248-262). -/
def main_select (whisper_subs manual_subs : List Subtitle) : MergeOutcome :=
  if whisper_subs = [] ∧ manual_subs = [] then MergeOutcome.noFiles
  else if whisper_subs = [] then
    MergeOutcome.passThrough manual_subs ⟨0, 0, 0, manual_subs.length⟩
  else if manual_subs = [] then
    MergeOutcome.passThrough whisper_subs ⟨0, 0, whisper_subs.length, 0⟩
  else
    MergeOutcome.mergedTracks (merge_subtitles whisper_subs manual_subs).1
      (merge_subtitles whisper_subs manual_subs).2

/-! ## Counting lemmas over spec-side match results -/

/-- An unmatched-human result. -/
def isHumanOnly : SMatch → Bool
  | .humanOnly _ => true
  | _ => false

/-! ## Generic helpers -/

theorem foldl_inv {α β : Type _} {P : β → Prop} {f : β → α → β}
    (hf : ∀ b a, P b → P (f b a)) :
    ∀ (l : List α) (b : β), P b → P (l.foldl f b) := by
  intro l
  induction l with
  | nil => intro b hb; exact hb
  | cons x xs ih => intro b hb; exact ih (f b x) (hf b x hb)

/-! ## Bounds for the text-similarity chain -/

theorem commonLen_le_left : ∀ a b : List Char, commonLen a b ≤ a.length := by
  intro a
  induction a with
  | nil => intro b; cases b <;> simp [commonLen]
  | cons c as ih =>
    intro b
    cases b with
    | nil => simp [commonLen]
    | cons d bs =>
      simp only [commonLen, List.length_cons]
      split
      · exact Nat.succ_le_succ (ih bs)
      · exact Nat.zero_le _

theorem commonLen_le_right : ∀ a b : List Char, commonLen a b ≤ b.length := by
  intro a
  induction a with
  | nil => intro b; cases b <;> simp [commonLen]
  | cons c as ih =>
    intro b
    cases b with
    | nil => simp [commonLen]
    | cons d bs =>
      simp only [commonLen, List.length_cons]
      split
      · exact Nat.succ_le_succ (ih bs)
      · exact Nat.zero_le _

theorem bestStep_valid {a b : List Char} {acc : Nat × Nat × Nat} (ij : Nat × Nat)
    (h : BlockValid a b acc) : BlockValid a b (bestStep a b acc ij) := by
  simp only [bestStep, BlockValid]
  split
  · dsimp only
    constructor
    · have := commonLen_le_left (a.drop ij.1) (b.drop ij.2)
      simp only [List.length_drop] at this
      omega
    · have := commonLen_le_right (a.drop ij.1) (b.drop ij.2)
      simp only [List.length_drop] at this
      omega
  · exact h

theorem bestMatch_valid (a b : List Char) : BlockValid a b (bestMatch a b) := by
  unfold bestMatch
  apply foldl_inv (P := BlockValid a b)
  · intro acc i hacc
    apply foldl_inv (P := BlockValid a b)
    · intro acc2 j h2
      exact bestStep_valid (i, j) h2
    · exact hacc
  · exact ⟨Nat.zero_le _, Nat.zero_le _⟩

theorem ratioMatches_le_left :
    ∀ (fuel : Nat) (a b : List Char), ratioMatches fuel a b ≤ a.length := by
  intro fuel
  induction fuel with
  | zero => intro a b; simp [ratioMatches]
  | succ n ih =>
    intro a b
    simp only [ratioMatches]
    split
    · exact Nat.zero_le _
    · rename_i hk
      have hv := bestMatch_valid a b
      obtain ⟨hva, hvb⟩ := hv
      have h1 := ih (a.take (bestMatch a b).1) (b.take (bestMatch a b).2.1)
      have h2 := ih (a.drop ((bestMatch a b).1 + (bestMatch a b).2.2))
        (b.drop ((bestMatch a b).2.1 + (bestMatch a b).2.2))
      simp only [List.length_take, List.length_drop] at h1 h2
      omega

theorem ratioMatches_le_right :
    ∀ (fuel : Nat) (a b : List Char), ratioMatches fuel a b ≤ b.length := by
  intro fuel
  induction fuel with
  | zero => intro a b; simp [ratioMatches]
  | succ n ih =>
    intro a b
    simp only [ratioMatches]
    split
    · exact Nat.zero_le _
    · rename_i hk
      have hv := bestMatch_valid a b
      obtain ⟨hva, hvb⟩ := hv
      have h1 := ih (a.take (bestMatch a b).1) (b.take (bestMatch a b).2.1)
      have h2 := ih (a.drop ((bestMatch a b).1 + (bestMatch a b).2.2))
        (b.drop ((bestMatch a b).2.1 + (bestMatch a b).2.2))
      simp only [List.length_take, List.length_drop] at h1 h2
      omega

theorem ratioSM_nonneg (a b : List Char) : 0 ≤ ratioSM a b := by
  unfold ratioSM
  positivity

theorem ratioSM_le_one {a b : List Char} (ha : a ≠ []) (_hb : b ≠ []) :
    ratioSM a b ≤ 1 := by
  unfold ratioSM
  have hm1 := ratioMatches_le_left (a.length + b.length) a b
  have hm2 := ratioMatches_le_right (a.length + b.length) a b
  have hden : (0 : ℚ) < (a.length : ℚ) + (b.length : ℚ) := by
    have : 0 < a.length := List.length_pos.mpr ha
    have : (1 : ℚ) ≤ (a.length : ℚ) := by exact_mod_cast this
    have hb0 : (0 : ℚ) ≤ (b.length : ℚ) := by positivity
    linarith
  rw [div_le_one hden]
  unfold matchesSM
  have h1 : (ratioMatches (a.length + b.length) a b : ℚ) ≤ (a.length : ℚ) := by
    exact_mod_cast hm1
  have h2 : (ratioMatches (a.length + b.length) a b : ℚ) ≤ (b.length : ℚ) := by
    exact_mod_cast hm2
  linarith

theorem text_score_nonneg (w m : Subtitle) : 0 ≤ text_score w m := by
  simp only [text_score, calculate_text_similarity]
  split
  · exact le_refl 0
  · exact ratioSM_nonneg _ _

theorem text_score_le_one (w m : Subtitle) : text_score w m ≤ 1 := by
  simp only [text_score, calculate_text_similarity]
  split
  · exact zero_le_one
  · rename_i h
    push_neg at h
    exact ratioSM_le_one h.1 h.2

theorem time_score_nonneg (w m : Subtitle) : 0 ≤ time_score w m :=
  le_max_left 0 _

theorem time_score_le_one (w m : Subtitle) : time_score w m ≤ 1 := by
  unfold time_score
  have habs : (0 : ℚ) ≤ |w.start - m.start| := abs_nonneg _
  have : 1 - |w.start - m.start| / 5 ≤ 1 := by linarith [div_nonneg habs (by norm_num : (0:ℚ) ≤ 5)]
  exact max_le zero_le_one this

theorem combined_score_nonneg (w m : Subtitle) : 0 ≤ combined_score w m := by
  unfold combined_score
  have h1 := text_score_nonneg w m
  have h2 := time_score_nonneg w m
  nlinarith

theorem combined_score_le_one (w m : Subtitle) : combined_score w m ≤ 1 := by
  unfold combined_score
  have h1 := text_score_le_one w m
  have h2 := time_score_le_one w m
  have h3 := text_score_nonneg w m
  have h4 := time_score_nonneg w m
  nlinarith

theorem cfB_nil (w : Subtitle) (used : List Int) : cfB w used [] = (none, 0) := rfl

theorem cfB_cons_mem {m : Subtitle} {used : List Int} (w : Subtitle)
    (l : List Subtitle) (hu : m.index ∈ used) :
    cfB w used (m :: l) = cfB w used l := by
  simp only [cfB, if_pos hu]

theorem cfB_cons_pos {m : Subtitle} {used : List Int} {w : Subtitle}
    {l : List Subtitle} (hu : m.index ∉ used)
    (h : SIMILARITY_THRESHOLD ≤ combined_score w m ∧
      (cfB w used l).2 ≤ combined_score w m) :
    cfB w used (m :: l) = (some m, combined_score w m) := by
  simp only [cfB, if_neg hu, if_pos h]

theorem cfB_cons_neg {m : Subtitle} {used : List Int} {w : Subtitle}
    {l : List Subtitle} (hu : m.index ∉ used)
    (h : ¬(SIMILARITY_THRESHOLD ≤ combined_score w m ∧
      (cfB w used l).2 ≤ combined_score w m)) :
    cfB w used (m :: l) = cfB w used l := by
  simp only [cfB, if_neg hu, if_neg h]

theorem cfB_cases (w : Subtitle) (used : List Int) :
    ∀ l : List Subtitle,
      cfB w used l = (none, 0) ∨
      ∃ m, m ∈ l ∧ m.index ∉ used ∧
        cfB w used l = (some m, combined_score w m) ∧
        SIMILARITY_THRESHOLD ≤ combined_score w m := by
  intro l
  induction l with
  | nil => left; rfl
  | cons m rest ih =>
    by_cases hu : m.index ∈ used
    · rw [cfB_cons_mem w rest hu]
      rcases ih with h | ⟨m', hm', hu', he', hs'⟩
      · left; exact h
      · right; exact ⟨m', List.mem_cons_of_mem _ hm', hu', he', hs'⟩
    · by_cases hacc : SIMILARITY_THRESHOLD ≤ combined_score w m ∧
          (cfB w used rest).2 ≤ combined_score w m
      · right
        exact ⟨m, List.mem_cons_self _ _, hu, cfB_cons_pos hu hacc, hacc.1⟩
      · rw [cfB_cons_neg hu hacc]
        rcases ih with h | ⟨m', hm', hu', he', hs'⟩
        · left; exact h
        · right; exact ⟨m', List.mem_cons_of_mem _ hm', hu', he', hs'⟩

theorem cfB_snd_nonneg (w : Subtitle) (used : List Int) (l : List Subtitle) :
    0 ≤ (cfB w used l).2 := by
  rcases cfB_cases w used l with h | ⟨m, _, _, he, hs⟩
  · rw [h]
  · rw [he]
    have h1 := combined_score_nonneg w m
    exact h1

theorem cfB_some_spec {w : Subtitle} {used : List Int} {l : List Subtitle}
    {m : Subtitle} {s : ℚ} (h : cfB w used l = (some m, s)) :
    s = combined_score w m ∧ SIMILARITY_THRESHOLD ≤ s ∧ m ∈ l ∧ m.index ∉ used := by
  rcases cfB_cases w used l with h0 | ⟨m', hm', hu', he', hs'⟩
  · rw [h0] at h
    simp at h
  · rw [he'] at h
    have h1 : some m' = some m := congrArg Prod.fst h
    have h2 : combined_score w m' = s := congrArg Prod.snd h
    obtain rfl : m' = m := Option.some.inj h1
    exact ⟨h2.symm, h2 ▸ hs', hm', hu'⟩

theorem cfB_ge (w : Subtitle) (used : List Int) :
    ∀ (l : List Subtitle) (m : Subtitle), m ∈ l → m.index ∉ used →
      SIMILARITY_THRESHOLD ≤ combined_score w m →
      combined_score w m ≤ (cfB w used l).2 := by
  intro l
  induction l with
  | nil => intro m hm; cases hm
  | cons x rest ih =>
    intro m hm hu hs
    by_cases hux : x.index ∈ used
    · have hmx : m ≠ x := fun he => hu (he ▸ hux)
      have hm' : m ∈ rest := (List.mem_cons.mp hm).resolve_left hmx
      rw [cfB_cons_mem w rest hux]
      exact ih m hm' hu hs
    · by_cases hacc : SIMILARITY_THRESHOLD ≤ combined_score w x ∧
          (cfB w used rest).2 ≤ combined_score w x
      · rw [cfB_cons_pos hux hacc]
        rcases List.mem_cons.mp hm with rfl | hm'
        · exact le_refl _
        · exact le_trans (ih m hm' hu hs) hacc.2
      · rw [cfB_cons_neg hux hacc]
        rcases List.mem_cons.mp hm with rfl | hm'
        · push_neg at hacc
          exact le_of_lt (hacc hs)
        · exact ih m hm' hu hs

theorem fbLoop_nil (w : Subtitle) (used : List Int) (best : Option Subtitle × ℚ) :
    fbLoop w used [] best = best := rfl

theorem fbLoop_cons_mem {m : Subtitle} {used : List Int} (w : Subtitle)
    (l : List Subtitle) (best : Option Subtitle × ℚ) (hu : m.index ∈ used) :
    fbLoop w used (m :: l) best = fbLoop w used l best := by
  simp only [fbLoop, if_pos hu]

theorem fbLoop_cons_pos {m : Subtitle} {used : List Int} {w : Subtitle}
    {l : List Subtitle} {best : Option Subtitle × ℚ} (hu : m.index ∉ used)
    (h : best.2 < combined_score w m ∧ SIMILARITY_THRESHOLD ≤ combined_score w m) :
    fbLoop w used (m :: l) best = fbLoop w used l (some m, combined_score w m) := by
  simp only [fbLoop, if_neg hu, if_pos h]

theorem fbLoop_cons_neg {m : Subtitle} {used : List Int} {w : Subtitle}
    {l : List Subtitle} {best : Option Subtitle × ℚ} (hu : m.index ∉ used)
    (h : ¬(best.2 < combined_score w m ∧ SIMILARITY_THRESHOLD ≤ combined_score w m)) :
    fbLoop w used (m :: l) best = fbLoop w used l best := by
  simp only [fbLoop, if_neg hu, if_neg h]

theorem fbLoop_eq (w : Subtitle) (used : List Int) :
    ∀ (l : List Subtitle) (best : Option Subtitle × ℚ), 0 ≤ best.2 →
      fbLoop w used l best =
        if best.2 < (cfB w used l).2 then cfB w used l else best := by
  intro l
  induction l with
  | nil =>
    intro best hb
    rw [fbLoop_nil, cfB_nil]
    simp only [not_lt.mpr hb, if_false]
  | cons m rest ih =>
    intro best hb
    by_cases hu : m.index ∈ used
    · rw [fbLoop_cons_mem w rest best hu, cfB_cons_mem w rest hu]
      exact ih best hb
    · by_cases hq : best.2 < combined_score w m ∧
          SIMILARITY_THRESHOLD ≤ combined_score w m
      · rw [fbLoop_cons_pos hu hq]
        have hstep := ih (some m, combined_score w m) (combined_score_nonneg w m)
        rw [hstep]
        by_cases hr : (cfB w used rest).2 ≤ combined_score w m
        · have hcond : SIMILARITY_THRESHOLD ≤ combined_score w m ∧
              (cfB w used rest).2 ≤ combined_score w m := ⟨hq.2, hr⟩
          rw [cfB_cons_pos hu hcond]
          rw [if_neg (not_lt.mpr hr), if_pos hq.1]
        · push_neg at hr
          have hcond : ¬(SIMILARITY_THRESHOLD ≤ combined_score w m ∧
              (cfB w used rest).2 ≤ combined_score w m) := by
            intro hc
            exact absurd hc.2 (not_le.mpr hr)
          rw [cfB_cons_neg hu hcond]
          rw [if_pos hr, if_pos (lt_trans hq.1 hr)]
      · rw [fbLoop_cons_neg hu hq, ih best hb]
        by_cases hacc : SIMILARITY_THRESHOLD ≤ combined_score w m ∧
            (cfB w used rest).2 ≤ combined_score w m
        · rw [cfB_cons_pos hu hacc]
          push_neg at hq
          have hbm : ¬ best.2 < combined_score w m := fun hlt =>
            absurd hacc.1 (not_le.mpr (hq hlt))
          have h2 : ¬ best.2 < (cfB w used rest).2 :=
            not_lt.mpr (le_trans hacc.2 (not_lt.mp hbm))
          rw [if_neg hbm, if_neg h2]
        · rw [cfB_cons_neg hu hacc]

theorem find_best_match_eq_cfB (w : Subtitle) (ms : List Subtitle)
    (used : List Int) : find_best_match w ms used = cfB w used ms := by
  unfold find_best_match
  rw [fbLoop_eq w used ms (none, 0) (le_refl 0)]
  rcases cfB_cases w used ms with h0 | ⟨m, _, _, he, hs⟩
  · rw [h0]
    simp
  · rw [he]
    have hpos : (0 : ℚ) < combined_score w m := by
      have ht : (0 : ℚ) < SIMILARITY_THRESHOLD := by norm_num [SIMILARITY_THRESHOLD]
      linarith
    rw [if_pos hpos]

/-! ## Helper lemmas about find? and all -/

theorem findPred_congr {α : Type _} {p q : α → Bool} :
    ∀ {l : List α}, (∀ x ∈ l, p x = q x) → l.find? p = l.find? q := by
  intro l
  induction l with
  | nil => intro h; rfl
  | cons x xs ih =>
    intro h
    have hx := h x (List.mem_cons_self _ _)
    by_cases hp : p x = true
    · rw [List.find?_cons_of_pos _ hp, List.find?_cons_of_pos _ (hx ▸ hp)]
    · rw [List.find?_cons_of_neg _ hp, List.find?_cons_of_neg _ (hx ▸ hp)]
      exact ih (fun y hy => h y (List.mem_cons_of_mem _ hy))

theorem allMap {α β : Type _} (f : α → β) (p : β → Bool) :
    ∀ l : List α, (l.map f).all p = l.all (fun x => p (f x)) := by
  intro l
  induction l with
  | nil => rfl
  | cons x xs ih => simp [List.all_cons, ih]

/-! ## The code matcher refines the spec matcher -/

theorem cfB_eq_specPick (w : Subtitle) (used : List Int) :
    ∀ l : List Subtitle,
      cfB w used l =
        match specPick w (l.filter (fun m => decide (m.index ∉ used))) with
        | none => (none, 0)
        | some m => (some m, combined_score w m) := by
  intro l
  induction l with
  | nil => rfl
  | cons x rest ih =>
    by_cases hux : x.index ∈ used
    · rw [cfB_cons_mem w rest hux,
        List.filter_cons_of_neg (by simp [hux]), ih]
    · rw [List.filter_cons_of_pos (by simp [hux])]
      by_cases hacc : SIMILARITY_THRESHOLD ≤ combined_score w x ∧
          (cfB w used rest).2 ≤ combined_score w x
      · rw [cfB_cons_pos hux hacc]
        have hall : ∀ m2 ∈ x :: rest.filter (fun m => decide (m.index ∉ used)),
            combined_score w m2 ≤ combined_score w x := by
          intro m2 hm2
          rcases List.mem_cons.mp hm2 with rfl | hm2'
          · exact le_refl _
          · obtain ⟨hmem, hdec⟩ := List.mem_filter.mp hm2'
            have hu2 : m2.index ∉ used := of_decide_eq_true hdec
            by_cases hθ2 : SIMILARITY_THRESHOLD ≤ combined_score w m2
            · exact le_trans (cfB_ge w used rest m2 hmem hu2 hθ2) hacc.2
            · push_neg at hθ2
              exact le_trans (le_of_lt hθ2) hacc.1
        have hpx : (decide (SIMILARITY_THRESHOLD ≤ combined_score w x) &&
            (x :: rest.filter (fun m => decide (m.index ∉ used))).all
              (fun m2 => decide (combined_score w m2 ≤ combined_score w x))) = true := by
          simp only [Bool.and_eq_true, decide_eq_true_eq, List.all_eq_true]
          exact ⟨hacc.1, fun m2 hm2 => by simpa using hall m2 hm2⟩
        have hfind : specPick w (x :: rest.filter (fun m => decide (m.index ∉ used))) =
            some x := List.find?_cons_of_pos _ hpx
        rw [hfind]
      · rw [cfB_cons_neg hux hacc, ih]
        have hdom : SIMILARITY_THRESHOLD ≤ combined_score w x →
            ∃ m', m' ∈ rest.filter (fun m => decide (m.index ∉ used)) ∧
              combined_score w x < combined_score w m' := by
          intro hθ
          have hlt : combined_score w x < (cfB w used rest).2 := by
            push_neg at hacc
            exact hacc hθ
          rcases cfB_cases w used rest with h0 | ⟨m', hm', hu', he', hs'⟩
          · rw [h0] at hlt
            exact absurd hlt (not_lt.mpr (combined_score_nonneg w x))
          · refine ⟨m', List.mem_filter.mpr ⟨hm', decide_eq_true hu'⟩, ?_⟩
            rw [he'] at hlt
            exact hlt
        have hpx : ¬ ((decide (SIMILARITY_THRESHOLD ≤ combined_score w x) &&
            (x :: rest.filter (fun m => decide (m.index ∉ used))).all
              (fun m2 => decide (combined_score w m2 ≤ combined_score w x))) = true) := by
          simp only [Bool.and_eq_true, decide_eq_true_eq, List.all_eq_true]
          rintro ⟨hθ, hally⟩
          obtain ⟨m', hm', hlt⟩ := hdom hθ
          have h1 := hally m' (List.mem_cons_of_mem _ hm')
          simp only [decide_eq_true_eq] at h1
          exact absurd h1 (not_le.mpr hlt)
        have hfind1 : specPick w (x :: rest.filter (fun m => decide (m.index ∉ used))) =
            List.find?
              (fun m => decide (SIMILARITY_THRESHOLD ≤ combined_score w m) &&
                (x :: rest.filter (fun m => decide (m.index ∉ used))).all
                  (fun m2 => decide (combined_score w m2 ≤ combined_score w m)))
              (rest.filter (fun m => decide (m.index ∉ used))) :=
          List.find?_cons_of_neg _ hpx
        have hcongr : ∀ y ∈ rest.filter (fun m => decide (m.index ∉ used)),
            (decide (SIMILARITY_THRESHOLD ≤ combined_score w y) &&
              (x :: rest.filter (fun m => decide (m.index ∉ used))).all
                (fun m2 => decide (combined_score w m2 ≤ combined_score w y))) =
            (decide (SIMILARITY_THRESHOLD ≤ combined_score w y) &&
              (rest.filter (fun m => decide (m.index ∉ used))).all
                (fun m2 => decide (combined_score w m2 ≤ combined_score w y))) := by
          intro y _hy
          by_cases hθy : SIMILARITY_THRESHOLD ≤ combined_score w y
          · rw [decide_eq_true hθy, Bool.true_and, Bool.true_and, List.all_cons]
            by_cases h2 : (rest.filter (fun m => decide (m.index ∉ used))).all
                (fun m2 => decide (combined_score w m2 ≤ combined_score w y)) = true
            · rw [h2, Bool.and_true]
              have hxy : combined_score w x ≤ combined_score w y := by
                by_cases hθx : SIMILARITY_THRESHOLD ≤ combined_score w x
                · obtain ⟨m', hm', hlt⟩ := hdom hθx
                  have h1 := List.all_eq_true.mp h2 m' hm'
                  simp only [decide_eq_true_eq] at h1
                  exact le_trans (le_of_lt hlt) h1
                · push_neg at hθx
                  exact le_trans (le_of_lt hθx) hθy
              exact decide_eq_true hxy
            · rw [eq_false_of_ne_true h2, Bool.and_false]
          · rw [decide_eq_false hθy, Bool.false_and, Bool.false_and]
        have hfind2 : List.find?
              (fun m => decide (SIMILARITY_THRESHOLD ≤ combined_score w m) &&
                (x :: rest.filter (fun m => decide (m.index ∉ used))).all
                  (fun m2 => decide (combined_score w m2 ≤ combined_score w m)))
              (rest.filter (fun m => decide (m.index ∉ used))) =
            specPick w (rest.filter (fun m => decide (m.index ∉ used))) :=
          findPred_congr hcongr
        rw [hfind1, hfind2]

theorem enumFrom_filter_map_snd (used : List Int) :
    ∀ (ms : List Subtitle) (n : Nat),
      ((List.enumFrom n ms).filter (fun c => decide (c.2.index ∉ used))).map Prod.snd =
        ms.filter (fun m => decide (m.index ∉ used)) := by
  intro ms
  induction ms with
  | nil => intro n; rfl
  | cons x xs ih =>
    intro n
    by_cases h : x.index ∉ used
    · have h1 : List.filter (fun c => decide (c.2.index ∉ used))
          ((n, x) :: List.enumFrom (n + 1) xs) =
          (n, x) :: List.filter (fun c => decide (c.2.index ∉ used))
            (List.enumFrom (n + 1) xs) :=
        List.filter_cons_of_pos (decide_eq_true h)
      have h2 : List.filter (fun m => decide (m.index ∉ used)) (x :: xs) =
          x :: List.filter (fun m => decide (m.index ∉ used)) xs :=
        List.filter_cons_of_pos (decide_eq_true h)
      rw [List.enumFrom_cons, h1, h2, List.map_cons, ih]
    · have h1 : List.filter (fun c => decide (c.2.index ∉ used))
          ((n, x) :: List.enumFrom (n + 1) xs) =
          List.filter (fun c => decide (c.2.index ∉ used))
            (List.enumFrom (n + 1) xs) :=
        List.filter_cons_of_neg (by simpa using h)
      have h2 : List.filter (fun m => decide (m.index ∉ used)) (x :: xs) =
          List.filter (fun m => decide (m.index ∉ used)) xs :=
        List.filter_cons_of_neg (by simpa using h)
      rw [List.enumFrom_cons, h1, h2, ih]

theorem enum_filter_map_snd (used : List Int) (ms : List Subtitle) :
    (ms.enum.filter (fun c => decide (c.2.index ∉ used))).map Prod.snd =
      ms.filter (fun m => decide (m.index ∉ used)) :=
  enumFrom_filter_map_snd used ms 0

theorem spec_accept_map_snd (w : Subtitle) (cands : List (Nat × Subtitle)) :
    (spec_accept w cands).map Prod.snd = specPick w (cands.map Prod.snd) := by
  unfold spec_accept specPick
  rw [List.find?_map]
  congr 1
  apply findPred_congr
  intro c _
  simp only [Function.comp_apply]
  rw [allMap]

theorem enum_functional {l : List Subtitle} {p : Nat} {a b : Subtitle}
    (ha : (p, a) ∈ l.enum) (hb : (p, b) ∈ l.enum) : a = b := by
  rw [List.mk_mem_enum_iff_getElem?] at ha hb
  rw [ha] at hb
  exact Option.some.inj hb

theorem enum_index_inj {l : List Subtitle} (hn : (l.map Subtitle.index).Nodup)
    {i p : Nat} {a m : Subtitle} (hi : (i, a) ∈ l.enum) (hp : (p, m) ∈ l.enum)
    (hidx : a.index = m.index) : i = p := by
  rw [List.mk_mem_enum_iff_getElem?] at hi hp
  have hilt : i < l.length := (List.getElem?_eq_some_iff.mp hi).1
  have hmi : (l.map Subtitle.index)[i]? = some m.index := by
    rw [List.getElem?_map, hi]
    simp [hidx]
  have hmp : (l.map Subtitle.index)[p]? = some m.index := by
    rw [List.getElem?_map, hp]
    rfl
  exact List.getElem?_inj (by simpa using hilt) hn (hmi.trans hmp.symm)

theorem cands_update (ms : List Subtitle) (hn : (ms.map Subtitle.index).Nodup)
    (used : List Int) {p : Nat} {m : Subtitle}
    (hpm : (p, m) ∈ ms.enum) :
    (ms.enum.filter (fun c => decide (c.2.index ∉ used))).filter
        (fun c2 => decide (c2.1 ≠ p)) =
      ms.enum.filter (fun c => decide (c.2.index ∉ (m.index :: used))) := by
  rw [List.filter_filter]
  apply List.filter_congr
  intro c hc
  obtain ⟨i, a⟩ := c
  have hiff : ((i, a).1 ≠ p ∧ (i, a).2.index ∉ used) ↔
      ((i, a).2.index ∉ (m.index :: used)) := by
    simp only [List.mem_cons, not_or]
    constructor
    · rintro ⟨h1, h2⟩
      refine ⟨?_, h2⟩
      intro heq
      exact h1 (enum_index_inj hn hc hpm heq)
    · rintro ⟨h1, h2⟩
      refine ⟨?_, h2⟩
      intro heq
      subst heq
      exact h1 (congrArg Subtitle.index (enum_functional hc hpm))
  calc (decide ((i, a).1 ≠ p) && decide ((i, a).2.index ∉ used))
      = decide ((i, a).1 ≠ p ∧ (i, a).2.index ∉ used) := (Bool.decide_and _ _).symm
    _ = decide ((i, a).2.index ∉ (m.index :: used)) := decide_eq_decide.mpr hiff

theorem step_corr (w : Subtitle) (ms : List Subtitle)
    (hn : (ms.map Subtitle.index).Nodup) (used : List Int) :
    (spec_accept w (ms.enum.filter (fun c => decide (c.2.index ∉ used))) = none →
      find_best_match w ms used = (none, 0)) ∧
    (∀ p m,
      spec_accept w (ms.enum.filter (fun c => decide (c.2.index ∉ used))) = some (p, m) →
      find_best_match w ms used = (some m, combined_score w m) ∧
      (ms.enum.filter (fun c => decide (c.2.index ∉ used))).filter
          (fun c2 => decide (c2.1 ≠ p)) =
        ms.enum.filter (fun c => decide (c.2.index ∉ (m.index :: used)))) := by
  have hbase : find_best_match w ms used =
      match (spec_accept w (ms.enum.filter (fun c =>
          decide (c.2.index ∉ used)))).map Prod.snd with
      | none => (none, 0)
      | some m => (some m, combined_score w m) := by
    rw [find_best_match_eq_cfB, cfB_eq_specPick, spec_accept_map_snd,
      enum_filter_map_snd]
  constructor
  · intro hnone
    rw [hbase, hnone]
    rfl
  · intro p m hsome
    constructor
    · rw [hbase, hsome]
      rfl
    · have hmem : (p, m) ∈ ms.enum.filter (fun c => decide (c.2.index ∉ used)) :=
        List.mem_of_find?_eq_some hsome
      have hpm : (p, m) ∈ ms.enum := (List.mem_filter.mp hmem).1
      exact cands_update ms hn used hpm

theorem renderFrom_append (l1 l2 : List SMatch) :
    ∀ n : Int, renderFrom n (l1 ++ l2) =
      renderFrom n l1 ++ renderFrom (n + l1.length) l2 := by
  induction l1 with
  | nil =>
    intro n
    simp [renderFrom]
  | cons r rs ih =>
    intro n
    have harg : n + 1 + (rs.length : Int) = n + ((rs.length + 1 : Nat) : Int) := by
      push_cast
      ring
    calc renderFrom n ((r :: rs) ++ l2)
        = renderOne n r :: renderFrom (n + 1) (rs ++ l2) := rfl
      _ = renderOne n r ::
            (renderFrom (n + 1) rs ++ renderFrom (n + 1 + rs.length) l2) := by
          rw [ih (n + 1)]
      _ = renderFrom n (r :: rs) ++ renderFrom (n + ((rs.length + 1 : Nat) : Int)) l2 := by
          rw [harg]
          rfl

theorem renderFrom_length (l : List SMatch) :
    ∀ n : Int, (renderFrom n l).length = l.length := by
  induction l with
  | nil => intro n; rfl
  | cons r rs ih => intro n; simp [renderFrom, ih]

theorem matchStep_some {ms : List Subtitle} {used : List Int} {w m : Subtitle}
    {s : ℚ} (merged : List MergedSub) (stats : Stats)
    (h : find_best_match w ms used = (some m, s)) :
    matchStep ms (merged, used, stats) w =
      (merged ++ [renderOne ((merged.length : Int) + 1) (SMatch.paired w m s)],
       m.index :: used,
       if 9/10 < s then { stats with perfect_match := stats.perfect_match + 1 }
       else { stats with fuzzy_match := stats.fuzzy_match + 1 }) := by
  unfold matchStep
  dsimp only
  rw [h]
  rfl

theorem matchStep_none {ms : List Subtitle} {used : List Int} {w : Subtitle}
    {s : ℚ} (merged : List MergedSub) (stats : Stats)
    (h : find_best_match w ms used = (none, s)) :
    matchStep ms (merged, used, stats) w =
      (merged ++ [renderOne ((merged.length : Int) + 1) (SMatch.machineOnly w)],
       used, { stats with whisper_only := stats.whisper_only + 1 }) := by
  unfold matchStep
  dsimp only
  rw [h]
  rfl

theorem rev_cons_append (x : Int) (l : List Int) (used : List Int) :
    (x :: l).reverse ++ used = l.reverse ++ (x :: used) := by
  simp [List.reverse_cons, List.append_assoc]

theorem append_render_cons (merged : List MergedSub) (r : SMatch) (rs : List SMatch) :
    (merged ++ [renderOne ((merged.length : Int) + 1) r]) ++
      renderFrom (((merged ++ [renderOne ((merged.length : Int) + 1) r]).length : Int) + 1) rs =
    merged ++ renderFrom ((merged.length : Int) + 1) (r :: rs) := by
  have harg : (((merged ++ [renderOne ((merged.length : Int) + 1) r]).length : Nat) : Int) + 1 =
      (merged.length : Int) + 1 + 1 := by
    simp [List.length_append]
  rw [harg, List.append_assoc, List.singleton_append]
  rfl

theorem phase1_ref (ms : List Subtitle) (hn : (ms.map Subtitle.index).Nodup) :
    ∀ (ws : List Subtitle) (used : List Int) (merged : List MergedSub) (stats : Stats)
      (rs : List SMatch) (rem : List (Nat × Subtitle)),
      spec_match_go (ms.enum.filter (fun c => decide (c.2.index ∉ used))) ws = (rs, rem) →
      ws.foldl (matchStep ms) (merged, used, stats) =
        (merged ++ renderFrom ((merged.length : Int) + 1) rs,
         (consumedOf rs).reverse ++ used,
         ⟨stats.perfect_match + rs.countP isPairedPerfect,
          stats.fuzzy_match + rs.countP isPairedFuzzy,
          stats.whisper_only + rs.countP isMachineOnly,
          stats.manual_only⟩) ∧
      rem = ms.enum.filter
        (fun c => decide (c.2.index ∉ ((consumedOf rs).reverse ++ used))) := by
  intro ws
  induction ws with
  | nil =>
    intro used merged stats rs rem hgo
    simp only [spec_match_go] at hgo
    cases hgo
    constructor
    · simp [renderFrom, consumedOf]
    · simp [consumedOf]
  | cons w ws' ih =>
    intro used merged stats rs rem hgo
    rcases hsa : spec_accept w (ms.enum.filter (fun c => decide (c.2.index ∉ used)))
      with _ | ⟨p, m⟩
    · -- no candidate accepted: unmatched-machine step
      have hfb := (step_corr w ms hn used).1 hsa
      obtain ⟨r1, r2, hr⟩ : ∃ r1 r2,
          spec_match_go (ms.enum.filter (fun c => decide (c.2.index ∉ used))) ws' =
            (r1, r2) := ⟨_, _, rfl⟩
      have hgo2 : (SMatch.machineOnly w :: r1, r2) = (rs, rem) := by
        rw [← hgo]
        simp only [spec_match_go, hsa, hr]
      injection hgo2 with hrs hrem
      subst hrs
      subst hrem
      have hmain := ih used
        (merged ++ [renderOne ((merged.length : Int) + 1) (SMatch.machineOnly w)])
        { stats with whisper_only := stats.whisper_only + 1 } r1 r2 hr
      constructor
      · rw [List.foldl_cons, matchStep_none merged stats hfb, hmain.1,
          append_render_cons]
        refine Prod.ext rfl (Prod.ext rfl ?_)
        simp [List.countP_cons, isPairedPerfect, isPairedFuzzy, isMachineOnly,
          Stats.mk.injEq]
        all_goals omega
      · simp only [consumedOf]
        exact hmain.2
    · -- accepted candidate (p, m): matched step
      obtain ⟨hfb, hupd⟩ := (step_corr w ms hn used).2 p m hsa
      obtain ⟨r1, r2, hr⟩ : ∃ r1 r2,
          spec_match_go (ms.enum.filter
            (fun c => decide (c.2.index ∉ (m.index :: used)))) ws' = (r1, r2) :=
        ⟨_, _, rfl⟩
      have hgo2 : (SMatch.paired w m (combined_score w m) :: r1, r2) = (rs, rem) := by
        rw [← hgo]
        simp only [spec_match_go, hsa]
        rw [hupd, hr]
      injection hgo2 with hrs hrem
      subst hrs
      subst hrem
      have hmain := ih (m.index :: used)
        (merged ++ [renderOne ((merged.length : Int) + 1)
          (SMatch.paired w m (combined_score w m))])
        (if 9/10 < combined_score w m then
          { stats with perfect_match := stats.perfect_match + 1 }
         else { stats with fuzzy_match := stats.fuzzy_match + 1 }) r1 r2 hr
      constructor
      · rw [List.foldl_cons, matchStep_some merged stats hfb, hmain.1,
          append_render_cons]
        refine Prod.ext rfl (Prod.ext ?_ ?_)
        · show (consumedOf r1).reverse ++ (m.index :: used) =
            (m.index :: consumedOf r1).reverse ++ used
          rw [rev_cons_append]
        · by_cases hperf : 9/10 < combined_score w m
          · simp [if_pos hperf, List.countP_cons, isPairedPerfect, isPairedFuzzy,
              isMachineOnly, decide_eq_true hperf,
              decide_eq_false (not_le.mpr hperf), Stats.mk.injEq]
            all_goals omega
          · simp [if_neg hperf, List.countP_cons, isPairedPerfect, isPairedFuzzy,
              isMachineOnly, decide_eq_false hperf,
              decide_eq_true (not_lt.mp hperf), Stats.mk.injEq]
            all_goals omega
      · simp only [consumedOf]
        simp only [rev_cons_append]
        exact hmain.2

theorem manualStep_mem {used : List Int} {m : Subtitle} (merged : List MergedSub)
    (stats : Stats) (h : m.index ∈ used) :
    manualStep (merged, used, stats) m = (merged, used, stats) := by
  unfold manualStep
  dsimp only
  rw [if_pos h]

theorem manualStep_not_mem {used : List Int} {m : Subtitle} (merged : List MergedSub)
    (stats : Stats) (h : m.index ∉ used) :
    manualStep (merged, used, stats) m =
      (merged ++ [renderOne ((merged.length : Int) + 1) (SMatch.humanOnly m)],
       used, { stats with manual_only := stats.manual_only + 1 }) := by
  unfold manualStep
  dsimp only
  rw [if_neg h]
  rfl

theorem phase2_go (used : List Int) :
    ∀ (l : List Subtitle) (merged : List MergedSub) (stats : Stats),
      l.foldl manualStep (merged, used, stats) =
        (merged ++ renderFrom ((merged.length : Int) + 1)
            ((l.filter (fun m => decide (m.index ∉ used))).map SMatch.humanOnly),
         used,
         { stats with manual_only := stats.manual_only +
            (l.filter (fun m => decide (m.index ∉ used))).length }) := by
  intro l
  induction l with
  | nil =>
    intro merged stats
    simp [renderFrom]
  | cons x xs ih =>
    intro merged stats
    by_cases hx : x.index ∈ used
    · have hfl : (x :: xs).filter (fun m => decide (m.index ∉ used)) =
          xs.filter (fun m => decide (m.index ∉ used)) :=
        List.filter_cons_of_neg (by simpa using hx)
      rw [List.foldl_cons, manualStep_mem merged stats hx, hfl]
      exact ih merged stats
    · have hfl : (x :: xs).filter (fun m => decide (m.index ∉ used)) =
          x :: xs.filter (fun m => decide (m.index ∉ used)) :=
        List.filter_cons_of_pos (decide_eq_true hx)
      rw [List.foldl_cons, manualStep_not_mem merged stats hx, ih, hfl]
      refine Prod.ext ?_ (Prod.ext rfl ?_)
      · show (merged ++ [renderOne ((merged.length : Int) + 1) (SMatch.humanOnly x)]) ++
            renderFrom (((merged ++ [renderOne ((merged.length : Int) + 1)
              (SMatch.humanOnly x)]).length : Int) + 1)
              ((xs.filter (fun m => decide (m.index ∉ used))).map SMatch.humanOnly) =
          merged ++ renderFrom ((merged.length : Int) + 1)
            ((x :: xs.filter (fun m => decide (m.index ∉ used))).map SMatch.humanOnly)
        rw [List.map_cons]
        exact append_render_cons merged (SMatch.humanOnly x) _
      · simp [List.length_cons, Stats.mk.injEq]
        all_goals omega

theorem merge_state_full (ws ms : List Subtitle)
    (hn : (ms.map Subtitle.index).Nodup) :
    ∀ (rs : List SMatch) (rem : List (Nat × Subtitle)),
      spec_match_go ms.enum ws = (rs, rem) →
      merge_state ws ms =
        (renderFrom 1 (rs ++ rem.map (fun c => SMatch.humanOnly c.2)),
         (consumedOf rs).reverse,
         ⟨rs.countP isPairedPerfect, rs.countP isPairedFuzzy,
          rs.countP isMachineOnly, rem.length⟩) ∧
      rem = ms.enum.filter
        (fun c => decide (c.2.index ∉ (consumedOf rs).reverse)) := by
  intro rs rem hgo
  have hfe : ms.enum.filter (fun c => decide (c.2.index ∉ ([] : List Int))) =
      ms.enum :=
    List.filter_eq_self.mpr (fun a _ => by simp)
  have hgo' : spec_match_go
      (ms.enum.filter (fun c => decide (c.2.index ∉ ([] : List Int)))) ws =
      (rs, rem) := by
    rw [hfe]
    exact hgo
  have h1 := phase1_ref ms hn ws [] [] ⟨0, 0, 0, 0⟩ rs rem hgo'
  have hrem : rem = ms.enum.filter
      (fun c => decide (c.2.index ∉ (consumedOf rs).reverse)) := by
    have := h1.2
    simpa using this
  refine ⟨?_, hrem⟩
  unfold merge_state
  rw [h1.1]
  simp only [List.nil_append, List.append_nil, List.length_nil, Nat.cast_zero,
    zero_add]
  rw [phase2_go ((consumedOf rs).reverse) ms (renderFrom 1 rs)
    ⟨rs.countP isPairedPerfect, rs.countP isPairedFuzzy, rs.countP isMachineOnly, 0⟩]
  have hfilter : ms.filter (fun m => decide (m.index ∉ (consumedOf rs).reverse)) =
      rem.map Prod.snd := by
    rw [hrem, enum_filter_map_snd]
  rw [hfilter]
  refine Prod.ext ?_ (Prod.ext rfl ?_)
  · show renderFrom 1 rs ++
        renderFrom (((renderFrom 1 rs).length : Int) + 1)
          ((rem.map Prod.snd).map SMatch.humanOnly) =
      renderFrom 1 (rs ++ rem.map (fun c => SMatch.humanOnly c.2))
    rw [renderFrom_append, renderFrom_length, List.map_map]
    have : (1 : Int) + rs.length = (rs.length : Int) + 1 := by ring
    rw [this]
    rfl
  · simp [List.length_map, Stats.mk.injEq]

/-! ## Sorting and re-indexing -/

theorem insertByStart_perm (x : MergedSub) :
    ∀ l : List MergedSub, (insertByStart x l).Perm (x :: l) := by
  intro l
  induction l with
  | nil => exact List.Perm.refl _
  | cons y ys ih =>
    unfold insertByStart
    split
    · exact ((ih.cons y).trans (List.Perm.swap x y ys))
    · exact List.Perm.refl _

theorem insertByStart_sorted (x : MergedSub) :
    ∀ l : List MergedSub, List.Pairwise (fun a b => a.start ≤ b.start) l →
      List.Pairwise (fun a b => a.start ≤ b.start) (insertByStart x l) := by
  intro l
  induction l with
  | nil =>
    intro _
    exact List.pairwise_singleton _ _
  | cons y ys ih =>
    intro hp
    obtain ⟨hy, hys⟩ := List.pairwise_cons.mp hp
    unfold insertByStart
    split
    · rename_i hyx
      refine List.pairwise_cons.mpr ⟨?_, ih hys⟩
      intro z hz
      have hz' : z ∈ x :: ys := (insertByStart_perm x ys).mem_iff.mp hz
      rcases List.mem_cons.mp hz' with rfl | hz''
      · exact hyx
      · exact hy z hz''
    · rename_i hyx
      push_neg at hyx
      refine List.pairwise_cons.mpr ⟨?_, hp⟩
      intro z hz
      rcases List.mem_cons.mp hz with rfl | hz'
      · exact le_of_lt hyx
      · exact le_trans (le_of_lt hyx) (hy z hz')

theorem insertByStart_filter (q : ℚ) (x : MergedSub) :
    ∀ l : List MergedSub, List.Pairwise (fun a b => a.start ≤ b.start) l →
      (insertByStart x l).filter (fun e => decide (e.start = q)) =
        if x.start = q then
          l.filter (fun e => decide (e.start = q)) ++ [x]
        else l.filter (fun e => decide (e.start = q)) := by
  intro l
  induction l with
  | nil =>
    intro _
    by_cases hxq : x.start = q
    · simp [insertByStart, hxq]
    · simp [insertByStart, hxq]
  | cons y ys ih =>
    intro hp
    obtain ⟨hy, hys⟩ := List.pairwise_cons.mp hp
    unfold insertByStart
    split
    · rename_i hyx
      by_cases hyq : y.start = q
      · have h1 : List.filter (fun e => decide (e.start = q)) (y :: insertByStart x ys) =
            y :: List.filter (fun e => decide (e.start = q)) (insertByStart x ys) :=
          List.filter_cons_of_pos (decide_eq_true hyq)
        have h2 : List.filter (fun e => decide (e.start = q)) (y :: ys) =
            y :: List.filter (fun e => decide (e.start = q)) ys :=
          List.filter_cons_of_pos (decide_eq_true hyq)
        rw [h1, h2, ih hys]
        by_cases hxq : x.start = q
        · rw [if_pos hxq, if_pos hxq]
          rfl
        · rw [if_neg hxq, if_neg hxq]
      · have h1 : List.filter (fun e => decide (e.start = q)) (y :: insertByStart x ys) =
            List.filter (fun e => decide (e.start = q)) (insertByStart x ys) :=
          List.filter_cons_of_neg (by simpa using hyq)
        have h2 : List.filter (fun e => decide (e.start = q)) (y :: ys) =
            List.filter (fun e => decide (e.start = q)) ys :=
          List.filter_cons_of_neg (by simpa using hyq)
        rw [h1, h2, ih hys]
    · rename_i hyx
      push_neg at hyx
      by_cases hxq : x.start = q
      · have hnil : List.filter (fun e => decide (e.start = q)) (y :: ys) = [] := by
          rw [List.filter_eq_nil_iff]
          intro z hz
          rcases List.mem_cons.mp hz with rfl | hz'
          · simp only [decide_eq_true_eq]
            intro hzq
            exact absurd (hxq ▸ hzq : z.start = x.start) (by
              intro he
              exact absurd (he ▸ hyx) (lt_irrefl _))
          · simp only [decide_eq_true_eq]
            intro hzq
            have hzy : y.start ≤ z.start := hy z hz'
            have : x.start < z.start := lt_of_lt_of_le hyx hzy
            rw [hzq, hxq] at this
            exact absurd this (lt_irrefl _)
        have h1 : List.filter (fun e => decide (e.start = q)) (x :: y :: ys) =
            x :: List.filter (fun e => decide (e.start = q)) (y :: ys) :=
          List.filter_cons_of_pos (decide_eq_true hxq)
        rw [if_pos hxq, h1, hnil]
        rfl
      · have h1 : List.filter (fun e => decide (e.start = q)) (x :: y :: ys) =
            List.filter (fun e => decide (e.start = q)) (y :: ys) :=
          List.filter_cons_of_neg (by simpa using hxq)
        rw [if_neg hxq, h1]

theorem sortByStart_go_perm :
    ∀ (l acc : List MergedSub),
      (l.foldl (fun acc x => insertByStart x acc) acc).Perm (acc ++ l) := by
  intro l
  induction l with
  | nil =>
    intro acc
    simp
  | cons x xs ih =>
    intro acc
    rw [List.foldl_cons]
    have h1 := ih (insertByStart x acc)
    have h2 : (insertByStart x acc ++ xs).Perm ((x :: acc) ++ xs) :=
      (insertByStart_perm x acc).append_right xs
    have h3 : ((x :: acc) ++ xs).Perm (acc ++ x :: xs) := by
      rw [List.cons_append]
      exact List.perm_middle.symm
    exact (h1.trans h2).trans h3

theorem sortByStart_perm (l : List MergedSub) : (sortByStart l).Perm l := by
  unfold sortByStart
  simpa using sortByStart_go_perm l []

theorem sortByStart_sorted (l : List MergedSub) :
    List.Pairwise (fun a b => a.start ≤ b.start) (sortByStart l) := by
  unfold sortByStart
  apply foldl_inv (P := List.Pairwise (fun a b : MergedSub => a.start ≤ b.start))
  · intro acc x hacc
    exact insertByStart_sorted x acc hacc
  · exact List.Pairwise.nil

theorem sortByStart_go_filter (q : ℚ) :
    ∀ (l acc : List MergedSub),
      List.Pairwise (fun a b => a.start ≤ b.start) acc →
      (l.foldl (fun acc x => insertByStart x acc) acc).filter
          (fun e => decide (e.start = q)) =
        acc.filter (fun e => decide (e.start = q)) ++
          l.filter (fun e => decide (e.start = q)) := by
  intro l
  induction l with
  | nil =>
    intro acc _
    simp
  | cons x xs ih =>
    intro acc hacc
    rw [List.foldl_cons, ih (insertByStart x acc) (insertByStart_sorted x acc hacc),
      insertByStart_filter q x acc hacc]
    by_cases hxq : x.start = q
    · have h2 : List.filter (fun e => decide (e.start = q)) (x :: xs) =
          x :: List.filter (fun e => decide (e.start = q)) xs :=
        List.filter_cons_of_pos (decide_eq_true hxq)
      rw [if_pos hxq, h2, List.append_assoc, List.singleton_append]
    · have h2 : List.filter (fun e => decide (e.start = q)) (x :: xs) =
          List.filter (fun e => decide (e.start = q)) xs :=
        List.filter_cons_of_neg (by simpa using hxq)
      rw [if_neg hxq, h2]

theorem sortByStart_filter (q : ℚ) (l : List MergedSub) :
    (sortByStart l).filter (fun e => decide (e.start = q)) =
      l.filter (fun e => decide (e.start = q)) := by
  unfold sortByStart
  simpa using sortByStart_go_filter q l [] List.Pairwise.nil

theorem reindexFrom_length :
    ∀ (l : List MergedSub) (n : Int), (reindexFrom n l).length = l.length := by
  intro l
  induction l with
  | nil => intro n; rfl
  | cons x xs ih => intro n; simp [reindexFrom, ih]

theorem reindexFrom_get :
    ∀ (l : List MergedSub) (n : Int) (i : Nat) (h : i < (reindexFrom n l).length),
      (reindexFrom n l).get ⟨i, h⟩ =
        { l.get ⟨i, by rw [← reindexFrom_length l n]; exact h⟩ with index := n + i } := by
  intro l
  induction l with
  | nil =>
    intro n i h
    simp [reindexFrom] at h
  | cons x xs ih =>
    intro n i h
    cases i with
    | zero => simp [reindexFrom]
    | succ j =>
      have hj : j < (reindexFrom (n + 1) xs).length := by
        simpa [reindexFrom] using h
      have := ih (n + 1) j hj
      simp only [reindexFrom, List.get_cons_succ]
      rw [this]
      push_cast
      ring_nf

theorem reindexFrom_map_strip :
    ∀ (l : List MergedSub) (n : Int),
      (reindexFrom n l).map stripIdx = l.map stripIdx := by
  intro l
  induction l with
  | nil => intro n; rfl
  | cons x xs ih =>
    intro n
    simp only [reindexFrom, List.map_cons, ih]
    rfl

theorem mem_reindexFrom {e : MergedSub} :
    ∀ {l : List MergedSub} {n : Int}, e ∈ reindexFrom n l →
      ∃ e' ∈ l, e.start = e'.start ∧ e.stop = e'.stop ∧ e.text = e'.text ∧
        e.source = e'.source ∧ e.match_score = e'.match_score ∧
        e.whisper_text = e'.whisper_text ∧ e.manual_text = e'.manual_text := by
  intro l
  induction l with
  | nil =>
    intro n h
    cases h
  | cons x xs ih =>
    intro n h
    rcases List.mem_cons.mp h with rfl | h'
    · exact ⟨x, List.mem_cons_self _ _, rfl, rfl, rfl, rfl, rfl, rfl, rfl⟩
    · obtain ⟨e', he', hrest⟩ := ih h'
      exact ⟨e', List.mem_cons_of_mem _ he', hrest⟩

theorem readLoop_filterMap :
    ∀ (lines : List String) (n : Nat),
      (readLoop lines n).map coreOf = lines.filterMap parseLine := by
  intro lines
  induction lines with
  | nil => intro n; rfl
  | cons line rest ih =>
    intro n
    rcases hp : parseLine line with _ | ⟨i, s, e, t⟩
    · rw [List.filterMap_cons_none hp]
      simp only [readLoop, hp]
      exact ih (n + 1)
    · rw [List.filterMap_cons_some hp]
      simp only [readLoop, hp, List.map_cons]
      rw [ih (n + 1)]
      rfl

/-! ## Unconditional invariants of the merge state -/

/-- The used-index list after the merge is duplicate-free and only
holds indices of manual entries: each human index is consumed at most
once. -/
theorem merge_state_used_ok (ws ms : List Subtitle) :
    (merge_state ws ms).2.1.Nodup ∧
    ∀ i ∈ (merge_state ws ms).2.1, i ∈ ms.map Subtitle.index := by
  unfold merge_state
  have hstep : ∀ (acc : List MergedSub × List Int × Stats) (w : Subtitle),
      (acc.2.1.Nodup ∧ ∀ i ∈ acc.2.1, i ∈ ms.map Subtitle.index) →
      ((matchStep ms acc w).2.1.Nodup ∧
        ∀ i ∈ (matchStep ms acc w).2.1, i ∈ ms.map Subtitle.index) := by
    intro acc w hacc
    obtain ⟨merged, used, stats⟩ := acc
    rcases hf : find_best_match w ms used with ⟨o, s⟩
    cases o with
    | none =>
      rw [matchStep_none merged stats hf]
      exact hacc
    | some m =>
      rw [matchStep_some merged stats hf]
      have hspec := cfB_some_spec (find_best_match_eq_cfB w ms used ▸ hf)
      obtain ⟨_, _, hmem, hnotin⟩ := hspec
      constructor
      · exact List.nodup_cons.mpr ⟨hnotin, hacc.1⟩
      · intro i hi
        rcases List.mem_cons.mp hi with rfl | hi'
        · exact List.mem_map_of_mem Subtitle.index hmem
        · exact hacc.2 i hi'
  have hstep2 : ∀ (acc : List MergedSub × List Int × Stats) (m : Subtitle),
      (acc.2.1.Nodup ∧ ∀ i ∈ acc.2.1, i ∈ ms.map Subtitle.index) →
      ((manualStep acc m).2.1.Nodup ∧
        ∀ i ∈ (manualStep acc m).2.1, i ∈ ms.map Subtitle.index) := by
    intro acc m hacc
    obtain ⟨merged, used, stats⟩ := acc
    by_cases hm : m.index ∈ used
    · rw [manualStep_mem merged stats hm]
      exact hacc
    · rw [manualStep_not_mem merged stats hm]
      exact hacc
  exact foldl_inv hstep2 ms _
    (foldl_inv hstep ws ([], [], ⟨0, 0, 0, 0⟩) ⟨List.nodup_nil, by simp⟩)

/-- Every record appended during the machine phase counts towards the
machine-attributable records; the manual phase adds none. -/
theorem merge_state_machine_count (ws ms : List Subtitle) :
    ((merge_state ws ms).1.countP (fun e => decide (e.source ≠ "manual_only"))) =
      ws.length := by
  unfold merge_state
  have h1 : ∀ (l : List Subtitle) (acc : List MergedSub × List Int × Stats),
      ((l.foldl (matchStep ms) acc).1.countP
        (fun e => decide (e.source ≠ "manual_only"))) =
      acc.1.countP (fun e => decide (e.source ≠ "manual_only")) + l.length := by
    intro l
    induction l with
    | nil => intro acc; simp
    | cons w l' ih =>
      intro acc
      obtain ⟨merged, used, stats⟩ := acc
      rw [List.foldl_cons]
      rcases hf : find_best_match w ms used with ⟨o, s⟩
      cases o with
      | none =>
        rw [matchStep_none merged stats hf, ih]
        simp [List.countP_append, renderOne, List.countP_cons]
        omega
      | some m =>
        rw [matchStep_some merged stats hf, ih]
        simp [List.countP_append, renderOne, List.countP_cons]
        omega
  have h2 : ∀ (l : List Subtitle) (acc : List MergedSub × List Int × Stats),
      ((l.foldl manualStep acc).1.countP
        (fun e => decide (e.source ≠ "manual_only"))) =
      acc.1.countP (fun e => decide (e.source ≠ "manual_only")) := by
    intro l
    induction l with
    | nil => intro acc; rfl
    | cons m l' ih =>
      intro acc
      obtain ⟨merged, used, stats⟩ := acc
      rw [List.foldl_cons]
      by_cases hm : m.index ∈ used
      · rw [manualStep_mem merged stats hm, ih]
      · rw [manualStep_not_mem merged stats hm, ih]
        simp [List.countP_append, renderOne, List.countP_cons]
    
  rw [h2, h1]
  simp

/-- Score bucket invariant of every record in the unsorted merge list. -/
theorem merge_state_scores (ws ms : List Subtitle) :
    ∀ e ∈ (merge_state ws ms).1,
      (e.source = "merged" →
        SIMILARITY_THRESHOLD ≤ e.match_score ∧ e.match_score ≤ 1) ∧
      ((e.source = "whisper_only" ∨ e.source = "manual_only") →
        e.match_score = 0) := by
  unfold merge_state
  have hstep : ∀ (acc : List MergedSub × List Int × Stats) (w : Subtitle),
      (∀ e ∈ acc.1,
        (e.source = "merged" →
          SIMILARITY_THRESHOLD ≤ e.match_score ∧ e.match_score ≤ 1) ∧
        ((e.source = "whisper_only" ∨ e.source = "manual_only") →
          e.match_score = 0)) →
      ∀ e ∈ (matchStep ms acc w).1,
        (e.source = "merged" →
          SIMILARITY_THRESHOLD ≤ e.match_score ∧ e.match_score ≤ 1) ∧
        ((e.source = "whisper_only" ∨ e.source = "manual_only") →
          e.match_score = 0) := by
    intro acc w hacc
    obtain ⟨merged, used, stats⟩ := acc
    rcases hf : find_best_match w ms used with ⟨o, s⟩
    cases o with
    | none =>
      rw [matchStep_none merged stats hf]
      intro e he
      rcases List.mem_append.mp he with he' | he'
      · exact hacc e he'
      · rcases List.mem_singleton.mp he' with rfl
        refine ⟨?_, fun _ => rfl⟩
        intro hsrc
        simp [renderOne] at hsrc
    | some m =>
      rw [matchStep_some merged stats hf]
      intro e he
      rcases List.mem_append.mp he with he' | he'
      · exact hacc e he'
      · rcases List.mem_singleton.mp he' with rfl
        have hspec := cfB_some_spec (find_best_match_eq_cfB w ms used ▸ hf)
        obtain ⟨hs_eq, hθ, _, _⟩ := hspec
        constructor
        · intro _
          constructor
          · exact hθ
          · rw [hs_eq]
            exact combined_score_le_one w m
        · intro hsrc
          simp [renderOne] at hsrc
  have hstep2 : ∀ (acc : List MergedSub × List Int × Stats) (m : Subtitle),
      (∀ e ∈ acc.1,
        (e.source = "merged" →
          SIMILARITY_THRESHOLD ≤ e.match_score ∧ e.match_score ≤ 1) ∧
        ((e.source = "whisper_only" ∨ e.source = "manual_only") →
          e.match_score = 0)) →
      ∀ e ∈ (manualStep acc m).1,
        (e.source = "merged" →
          SIMILARITY_THRESHOLD ≤ e.match_score ∧ e.match_score ≤ 1) ∧
        ((e.source = "whisper_only" ∨ e.source = "manual_only") →
          e.match_score = 0) := by
    intro acc m hacc
    obtain ⟨merged, used, stats⟩ := acc
    by_cases hm : m.index ∈ used
    · rw [manualStep_mem merged stats hm]
      exact hacc
    · rw [manualStep_not_mem merged stats hm]
      intro e he
      rcases List.mem_append.mp he with he' | he'
      · exact hacc e he'
      · rcases List.mem_singleton.mp he' with rfl
        refine ⟨?_, fun _ => rfl⟩
        intro hsrc
        simp [renderOne] at hsrc
  exact foldl_inv hstep2 ms _ (foldl_inv hstep ws ([], [], ⟨0, 0, 0, 0⟩) (by simp))

theorem spec_go_len :
    ∀ (ws : List Subtitle) (cands : List (Nat × Subtitle)),
      (spec_match_go cands ws).1.length = ws.length := by
  intro ws
  induction ws with
  | nil => intro cands; rfl
  | cons w ws' ih =>
    intro cands
    rcases hsa : spec_accept w cands with _ | c
    · simp only [spec_match_go, hsa, List.length_cons]
      rw [ih]
    · simp only [spec_match_go, hsa, List.length_cons]
      rw [ih]

theorem spec_go_no_human :
    ∀ (ws : List Subtitle) (cands : List (Nat × Subtitle)) (r : SMatch),
      r ∈ (spec_match_go cands ws).1 → isHumanOnly r = false := by
  intro ws
  induction ws with
  | nil =>
    intro cands r hr
    cases hr
  | cons w ws' ih =>
    intro cands r hr
    rcases hsa : spec_accept w cands with _ | c
    · simp only [spec_match_go, hsa] at hr
      rcases List.mem_cons.mp hr with rfl | hr'
      · rfl
      · exact ih _ r hr'
    · simp only [spec_match_go, hsa] at hr
      rcases List.mem_cons.mp hr with rfl | hr'
      · rfl
      · exact ih _ r hr'

theorem countP_partition :
    ∀ rs : List SMatch, (∀ r ∈ rs, isHumanOnly r = false) →
      rs.countP isPairedPerfect + rs.countP isPairedFuzzy +
        rs.countP isMachineOnly = rs.length := by
  intro rs
  induction rs with
  | nil => intro _; rfl
  | cons r rs' ih =>
    intro hr
    have htail := ih (fun x hx => hr x (List.mem_cons_of_mem _ hx))
    simp only [List.countP_cons, List.length_cons]
    cases r with
    | paired w m s =>
      by_cases hperf : 9/10 < s
      · simp only [isPairedPerfect, isPairedFuzzy, isMachineOnly,
          decide_eq_true hperf, decide_eq_false (not_le.mpr hperf)]
        simp
        omega
      · simp only [isPairedPerfect, isPairedFuzzy, isMachineOnly,
          decide_eq_false hperf, decide_eq_true (not_lt.mp hperf)]
        simp
        omega
    | machineOnly w =>
      simp only [isPairedPerfect, isPairedFuzzy, isMachineOnly]
      simp
      omega
    | humanOnly m =>
      have := hr (SMatch.humanOnly m) (List.mem_cons_self _ _)
      simp [isHumanOnly] at this

theorem consumedOf_length :
    ∀ rs : List SMatch,
      (consumedOf rs).length =
        rs.countP isPairedPerfect + rs.countP isPairedFuzzy := by
  intro rs
  induction rs with
  | nil => rfl
  | cons r rs' ih =>
    simp only [List.countP_cons]
    cases r with
    | paired w m s =>
      simp only [consumedOf, List.length_cons, ih]
      by_cases hperf : 9/10 < s
      · simp only [isPairedPerfect, isPairedFuzzy,
          decide_eq_true hperf, decide_eq_false (not_le.mpr hperf)]
        simp
        omega
      · simp only [isPairedPerfect, isPairedFuzzy,
          decide_eq_false hperf, decide_eq_true (not_lt.mp hperf)]
        simp
        omega
    | machineOnly w =>
      simp only [consumedOf, ih, isPairedPerfect, isPairedFuzzy]
      simp
    | humanOnly m =>
      simp only [consumedOf, ih, isPairedPerfect, isPairedFuzzy]
      simp

theorem filter_length_split {α : Type _} (p : α → Bool) :
    ∀ l : List α,
      (l.filter p).length + (l.filter (fun x => !p x)).length = l.length := by
  intro l
  induction l with
  | nil => rfl
  | cons x xs ih =>
    by_cases hx : p x = true
    · rw [List.filter_cons_of_pos hx, List.filter_cons_of_neg (by simp [hx])]
      simp only [List.length_cons]
      omega
    · rw [List.filter_cons_of_neg hx, List.filter_cons_of_pos (by simp at hx; simp [hx])]
      simp only [List.length_cons]
      omega

theorem filter_mem_length {u : List Int} (ms : List Subtitle) (hu : u.Nodup)
    (hms : (ms.map Subtitle.index).Nodup)
    (hsub : ∀ i ∈ u, i ∈ ms.map Subtitle.index) :
    (ms.filter (fun m => decide (m.index ∈ u))).length = u.length := by
  have hsubl : ((ms.filter (fun m => decide (m.index ∈ u))).map Subtitle.index).Sublist
      (ms.map Subtitle.index) :=
    (List.filter_sublist ms).map Subtitle.index
  have hnd : ((ms.filter (fun m => decide (m.index ∈ u))).map Subtitle.index).Nodup :=
    hms.sublist hsubl
  have hmem : ∀ x, x ∈ (ms.filter (fun m => decide (m.index ∈ u))).map Subtitle.index ↔
      x ∈ u := by
    intro x
    constructor
    · intro hx
      obtain ⟨m, hm, rfl⟩ := List.mem_map.mp hx
      have := (List.mem_filter.mp hm).2
      exact of_decide_eq_true this
    · intro hx
      obtain ⟨m, hm, hmx⟩ := List.mem_map.mp (hsub x hx)
      refine List.mem_map.mpr ⟨m, ?_, hmx⟩
      refine List.mem_filter.mpr ⟨hm, decide_eq_true ?_⟩
      rw [hmx]
      exact hx
  have hperm : ((ms.filter (fun m => decide (m.index ∈ u))).map Subtitle.index).Perm u :=
    (List.perm_ext_iff_of_nodup hnd hu).mpr hmem
  have := hperm.length_eq
  rwa [List.length_map] at this

/-! ## Claim theorems -/

/-- C2: for every pair of one machine entry and one human entry, the
combined score is 0.7·textScore + 0.3·timeScore, the time score is
max(0, 1 − |Δstart|/5), the text score is the normalised
SequenceMatcher ratio 2·matches/(len(a)+len(b)) on the
whitespace-normalised texts and is 0 whenever either normalised text is
empty, and each of the three scores lies in [0, 1]. -/
theorem c2_score_formula_and_bounds (w m : Subtitle) :
    (combined_score w m = text_score w m * (7/10) + time_score w m * (3/10) ∧
     time_score w m = max 0 (1 - |w.start - m.start| / 5) ∧
     text_score w m = calculate_text_similarity w.text m.text ∧
     0 ≤ text_score w m ∧ text_score w m ≤ 1 ∧
     0 ≤ time_score w m ∧ time_score w m ≤ 1 ∧
     0 ≤ combined_score w m ∧ combined_score w m ≤ 1) ∧
    (pyNormalize w.text = [] ∨ pyNormalize m.text = [] → text_score w m = 0) ∧
    (pyNormalize w.text ≠ [] → pyNormalize m.text ≠ [] →
      text_score w m =
        2 * (matchesSM (pyNormalize w.text) (pyNormalize m.text) : ℚ) /
          (((pyNormalize w.text).length : ℚ) + ((pyNormalize m.text).length : ℚ))) := by
  refine ⟨⟨rfl, rfl, rfl, text_score_nonneg w m, text_score_le_one w m,
    time_score_nonneg w m, time_score_le_one w m,
    combined_score_nonneg w m, combined_score_le_one w m⟩, ?_, ?_⟩
  · intro h
    simp only [text_score, calculate_text_similarity]
    rw [if_pos h]
  · intro h1 h2
    simp only [text_score, calculate_text_similarity]
    rw [if_neg (not_or.mpr ⟨h1, h2⟩)]
    rfl

set_option maxRecDepth 100000 in
unseal Rat.add Rat.mul Rat.inv Rat.sub in
theorem c2_score_formula_and_bounds_witness :
    text_score ⟨1, 0, 1, "   ", 1⟩ ⟨2, 0, 1, "ab", 2⟩ = 0 ∧
    text_score ⟨1, 10, 12, "ab", 1⟩ ⟨2, 10, 12, "ad", 2⟩ =
      2 * (matchesSM (pyNormalize "ab") (pyNormalize "ad") : ℚ) /
        (((pyNormalize "ab").length : ℚ) + ((pyNormalize "ad").length : ℚ)) :=
  ⟨(c2_score_formula_and_bounds ⟨1, 0, 1, "   ", 1⟩ ⟨2, 0, 1, "ab", 2⟩).2.1
      (Or.inl (by decide)),
   (c2_score_formula_and_bounds ⟨1, 10, 12, "ab", 1⟩ ⟨2, 10, 12, "ad", 2⟩).2.2
      (by decide) (by decide)⟩

/-- C9: the merge is deterministic — identical machine and human entry
sequences produce identical match states, resolved tracks and
statistics; the embedding is a pure function, and the proof is the
congruence of that function. -/
theorem c9_deterministic (ws1 ws2 ms1 ms2 : List Subtitle)
    (hw : ws1 = ws2) (hm : ms1 = ms2) :
    merge_state ws1 ms1 = merge_state ws2 ms2 ∧
    merge_subtitles ws1 ms1 = merge_subtitles ws2 ms2 := by
  subst hw
  subst hm
  exact ⟨rfl, rfl⟩

theorem c9_deterministic_witness :
    merge_state [⟨1, 0, 1, "ab", 1⟩] [⟨1, 0, 1, "ab", 1⟩] =
      merge_state [⟨1, 0, 1, "ab", 1⟩] [⟨1, 0, 1, "ab", 1⟩] ∧
    merge_subtitles [⟨1, 0, 1, "ab", 1⟩] [⟨1, 0, 1, "ab", 1⟩] =
      merge_subtitles [⟨1, 0, 1, "ab", 1⟩] [⟨1, 0, 1, "ab", 1⟩] :=
  c9_deterministic _ _ _ _ rfl rfl

theorem reindexFrom_countP_nm :
    ∀ (l : List MergedSub) (n : Int),
      (reindexFrom n l).countP (fun e => decide (e.source ≠ "manual_only")) =
        l.countP (fun e => decide (e.source ≠ "manual_only")) := by
  intro l
  induction l with
  | nil => intro n; rfl
  | cons x xs ih =>
    intro n
    simp only [reindexFrom, List.countP_cons, ih]

theorem merge_subtitles_eq (ws ms : List Subtitle) :
    merge_subtitles ws ms =
      (reindexFrom 1 (sortByStart (merge_state ws ms).1),
       (merge_state ws ms).2.2) := rfl

/-- C5: the used-index set never holds an index twice — each human
entry is consumed by at most one match — and the records attributable
to machine entries (everything except the `manual_only` records) are
exactly one per machine entry. -/
theorem c5_unique_consumption_one_output_per_machine (ws ms : List Subtitle) :
    (merge_state ws ms).2.1.Nodup ∧
    ((merge_subtitles ws ms).1.filter
      (fun e => decide (e.source ≠ "manual_only"))).length = ws.length := by
  refine ⟨(merge_state_used_ok ws ms).1, ?_⟩
  rw [← List.countP_eq_length_filter, merge_subtitles_eq]
  rw [reindexFrom_countP_nm, (sortByStart_perm (merge_state ws ms).1).countP_eq,
    merge_state_machine_count]

/-- C10: every entry of the resolved track tagged `merged` carries a
match score between the acceptance threshold 0.6 and 1, and every
`whisper_only` or `manual_only` entry carries score exactly 0. -/
theorem c10_output_score_invariant (ws ms : List Subtitle) (e : MergedSub)
    (he : e ∈ (merge_subtitles ws ms).1) :
    (e.source = "merged" →
      SIMILARITY_THRESHOLD ≤ e.match_score ∧ e.match_score ≤ 1) ∧
    ((e.source = "whisper_only" ∨ e.source = "manual_only") →
      e.match_score = 0) := by
  rw [merge_subtitles_eq] at he
  obtain ⟨e', he', _, _, _, hsource, hscore, _, _⟩ := mem_reindexFrom he
  have he'' : e' ∈ (merge_state ws ms).1 :=
    (sortByStart_perm (merge_state ws ms).1).mem_iff.mp he'
  have hinv := merge_state_scores ws ms e' he''
  rw [hsource, hscore]
  exact hinv

set_option maxRecDepth 1000000 in
unseal Rat.add Rat.mul Rat.inv Rat.sub in
theorem c10_output_score_invariant_witness :
    SIMILARITY_THRESHOLD ≤ (491/500 : ℚ) ∧ (491/500 : ℚ) ≤ 1 :=
  (c10_output_score_invariant [⟨1, 10, 12, "hello world", 1⟩]
    [⟨1, 10 + 3/10, 12 + 1/10, "hello world", 1⟩]
    ⟨1, 10, 12, "hello world", "merged", 491/500,
      some "hello world", some "hello world"⟩
    (by decide)).1 (by decide)

theorem reindexFrom_pairwise :
    ∀ (l : List MergedSub) (n : Int),
      List.Pairwise (fun a b => a.start ≤ b.start) l →
      List.Pairwise (fun a b => a.start ≤ b.start) (reindexFrom n l) := by
  intro l
  induction l with
  | nil =>
    intro n _
    exact List.Pairwise.nil
  | cons x xs ih =>
    intro n hp
    obtain ⟨hy, hys⟩ := List.pairwise_cons.mp hp
    refine List.pairwise_cons.mpr ⟨?_, ih (n + 1) hys⟩
    intro z hz
    obtain ⟨e', he', hstart, _⟩ := mem_reindexFrom hz
    show x.start ≤ z.start
    rw [hstart]
    exact hy e' he'

theorem reindexFrom_filter_strip (q : ℚ) :
    ∀ (l : List MergedSub) (n : Int),
      ((reindexFrom n l).filter (fun e => decide (e.start = q))).map stripIdx =
        (l.filter (fun e => decide (e.start = q))).map stripIdx := by
  intro l
  induction l with
  | nil => intro n; rfl
  | cons x xs ih =>
    intro n
    by_cases hq : x.start = q
    · have h1 : List.filter (fun e => decide (e.start = q))
          ({ x with index := n } :: reindexFrom (n + 1) xs) =
          { x with index := n } ::
            List.filter (fun e => decide (e.start = q)) (reindexFrom (n + 1) xs) :=
        List.filter_cons_of_pos (decide_eq_true hq)
      have h2 : List.filter (fun e => decide (e.start = q)) (x :: xs) =
          x :: List.filter (fun e => decide (e.start = q)) xs :=
        List.filter_cons_of_pos (decide_eq_true hq)
      show ((({ x with index := n } :: reindexFrom (n + 1) xs)).filter
          (fun e => decide (e.start = q))).map stripIdx = _
      rw [h1, h2, List.map_cons, List.map_cons, ih]
      rfl
    · have h1 : List.filter (fun e => decide (e.start = q))
          ({ x with index := n } :: reindexFrom (n + 1) xs) =
          List.filter (fun e => decide (e.start = q)) (reindexFrom (n + 1) xs) :=
        List.filter_cons_of_neg (by simpa using hq)
      have h2 : List.filter (fun e => decide (e.start = q)) (x :: xs) =
          List.filter (fun e => decide (e.start = q)) xs :=
        List.filter_cons_of_neg (by simpa using hq)
      show ((({ x with index := n } :: reindexFrom (n + 1) xs)).filter
          (fun e => decide (e.start = q))).map stripIdx = _
      rw [h1, h2, ih]

/-- C7: the resolved track is sorted by start time (adjacent entries
are ordered), indices are reassigned 1..N in order, and the sort is the
stable permutation of the pre-sort list: the records modulo index are a
permutation of the pre-sort records, and for every start value the run
of records carrying it keeps its pre-sort order. -/
theorem c7_sorted_stable_reindexed (ws ms : List Subtitle) :
    List.Chain' (fun a b => a.start ≤ b.start) (merge_subtitles ws ms).1 ∧
    (∀ i (h : i < (merge_subtitles ws ms).1.length),
      ((merge_subtitles ws ms).1.get ⟨i, h⟩).index = (i : Int) + 1) ∧
    ((merge_subtitles ws ms).1.map stripIdx).Perm
      ((merge_state ws ms).1.map stripIdx) ∧
    ∀ q : ℚ,
      ((merge_subtitles ws ms).1.filter (fun e => decide (e.start = q))).map stripIdx =
        ((merge_state ws ms).1.filter (fun e => decide (e.start = q))).map stripIdx := by
  refine ⟨?_, ?_, ?_, ?_⟩
  · exact (reindexFrom_pairwise (sortByStart (merge_state ws ms).1) 1
      (sortByStart_sorted (merge_state ws ms).1)).chain'
  · intro i h
    have h' : i < (reindexFrom 1 (sortByStart (merge_state ws ms).1)).length := h
    show ((reindexFrom 1 (sortByStart (merge_state ws ms).1)).get ⟨i, h'⟩).index =
      (i : Int) + 1
    rw [reindexFrom_get]
    show (1 : Int) + i = (i : Int) + 1
    omega
  · show ((reindexFrom 1 (sortByStart (merge_state ws ms).1)).map stripIdx).Perm _
    rw [reindexFrom_map_strip]
    exact (sortByStart_perm (merge_state ws ms).1).map stripIdx
  · intro q
    show ((reindexFrom 1 (sortByStart (merge_state ws ms).1)).filter
        (fun e => decide (e.start = q))).map stripIdx = _
    rw [reindexFrom_filter_strip, sortByStart_filter]

set_option maxRecDepth 1000000 in
unseal Rat.add Rat.mul Rat.inv Rat.sub in
theorem c7_sorted_stable_reindexed_witness :
    ((merge_subtitles [⟨1, 0, 1, "ab", 1⟩] []).1.get ⟨0, by decide⟩).index =
      ((0 : Nat) : Int) + 1 :=
  (c7_sorted_stable_reindexed [⟨1, 0, 1, "ab", 1⟩] []).2.1 0 (by decide)

theorem readLoop_append :
    ∀ (l1 l2 : List String) (n : Nat),
      readLoop (l1 ++ l2) n = readLoop l1 n ++ readLoop l2 (n + l1.length) := by
  intro l1
  induction l1 with
  | nil =>
    intro l2 n
    simp [readLoop]
  | cons line rest ih =>
    intro l2 n
    have harg : n + 1 + rest.length = n + (rest.length + 1) := by omega
    rcases hp : parseLine line with _ | ⟨i, s, e, t⟩
    · show readLoop (line :: (rest ++ l2)) n = _
      simp only [readLoop, hp, List.length_cons]
      rw [ih l2 (n + 1), harg]
    · show readLoop (line :: (rest ++ l2)) n = _
      simp only [readLoop, hp, List.length_cons, List.cons_append]
      rw [ih l2 (n + 1), harg]

/-- C8: reading never aborts: a missing source yields the empty list,
the entries read are exactly the per-line parses of the lines (so the
whole read is line-independent), a malformed line anywhere is skipped
without disturbing the entries of the other lines, and lines with too
few fields or non-numeric timing fail to parse. -/
theorem c8_malformed_lines_skipped :
    read_subtitle_file none = [] ∧
    (∀ lines, (read_subtitle_file (some lines)).map coreOf =
      lines.filterMap parseLine) ∧
    (∀ pre post bad, parseLine bad = none →
      (read_subtitle_file (some (pre ++ bad :: post))).map coreOf =
        (read_subtitle_file (some (pre ++ post))).map coreOf) ∧
    parseLine "5 | 1.0 | 2.0" = none ∧
    parseLine "5 | one | 2.0 | text" = none := by
  refine ⟨rfl, ?_, ?_, by decide, by decide⟩
  · intro lines
    exact readLoop_filterMap lines 1
  · intro pre post bad hbad
    show (readLoop (pre ++ bad :: post) 1).map coreOf =
      (readLoop (pre ++ post) 1).map coreOf
    rw [readLoop_filterMap, readLoop_filterMap, List.filterMap_append,
      List.filterMap_append, List.filterMap_cons_none hbad]

set_option maxRecDepth 100000 in
theorem c8_malformed_lines_skipped_witness :
    (read_subtitle_file
        (some (["1 | 0.5 | 1.5 | ok"] ++ "1|2|x" :: ["2 | 2.0 | 3.0 | yes"]))).map coreOf =
      (read_subtitle_file (some (["1 | 0.5 | 1.5 | ok"] ++ ["2 | 2.0 | 3.0 | yes"]))).map
        coreOf :=
  c8_malformed_lines_skipped.2.2.1 ["1 | 0.5 | 1.5 | ok"] ["2 | 2.0 | 3.0 | yes"]
    "1|2|x" (by decide)

set_option maxRecDepth 100000 in
theorem c4_counterexample :
    read_subtitle_file (some ["10.0 | 12.0 | hello"]) = [] := by decide

set_option maxRecDepth 100000 in
unseal Rat.add Rat.mul Rat.inv Rat.sub in
/-- C4 (amended): the adapter reads both origins in the same four-field
format index|start|end|text (exactly what the machine-origin writer
emits); blank lines and lines beginning with '#' are ignored wherever
they appear; a well-formed machine-origin line of exactly four fields
yields a parsed entry with those index/start/end/text values, while a
three-field start|end|text line is skipped. -/
theorem c4_amended_four_field_format (lines : List String) :
    read_subtitle_file (some (lines ++ ["", "  # note"])) =
      read_subtitle_file (some lines) ∧
    read_subtitle_file (some ["2 | 1.25 | 3.5 | hello world"]) =
      [⟨2, 5/4, 7/2, "hello world", 1⟩] ∧
    parseLine "10.0 | 12.0 | hello" = none := by
  refine ⟨?_, by decide, by decide⟩
  show readLoop (lines ++ ["", "  # note"]) 1 = readLoop lines 1
  rw [readLoop_append]
  have h1 : parseLine "" = none := by decide
  have h2 : parseLine "  # note" = none := by decide
  simp only [readLoop, h1, h2, List.append_nil]

/-- C3: with one origin empty and the other non-empty, main
short-circuits and passes the other origin's entries through verbatim —
but as raw `Subtitle` records that carry no provenance tag at all (the
`passThrough` outcome), not as records tagged `machine_only` or
`human_only`; only the statistics dictionary counts them.  The
downstream report step reads each record's source tag and therefore
fails on this outcome. -/
theorem c3_passthrough_is_untagged :
    main_select [] [⟨1, 0, 2, "hello", 1⟩] =
      MergeOutcome.passThrough [⟨1, 0, 2, "hello", 1⟩] ⟨0, 0, 0, 1⟩ ∧
    main_select [⟨1, 0, 2, "hello", 1⟩] [] =
      MergeOutcome.passThrough [⟨1, 0, 2, "hello", 1⟩] ⟨0, 0, 1, 0⟩ ∧
    main_select [] [] = MergeOutcome.noFiles := by
  refine ⟨rfl, rfl, rfl⟩

set_option maxRecDepth 1000000 in
unseal Rat.add Rat.mul Rat.inv Rat.sub in
theorem c1_counterexample :
    (merge_subtitles [⟨1, 0, 1, "ab", 1⟩]
        [⟨1, 0, 1, "ab", 1⟩, ⟨1, 50, 51, "zz", 2⟩]).1.map (fun e => e.source) =
      ["merged"] ∧
    ∀ e ∈ (merge_subtitles [⟨1, 0, 1, "ab", 1⟩]
        [⟨1, 0, 1, "ab", 1⟩, ⟨1, 50, 51, "zz", 2⟩]).1,
      e.manual_text ≠ some "zz" := by decide

/-- C1 (amended): provided the human entries carry pairwise distinct
index values (the consumed-set tracks index values, so a duplicated
index conflates two entries and silently drops the later one), the
merge state before sorting is exactly the rendering of the spec-side
matcher: for each machine entry in input order the not-yet-consumed
human entry with the highest combined score is selected, first
encountered wins ties, it is accepted only at or above the 0.6
threshold and then consumed, otherwise an unmatched-machine record with
score 0 is emitted, and every never-consumed human entry becomes its
own unmatched-human record; moreover the first-come-first-served
consequence holds: when two machine entries both reach the threshold
against the same single human entry, the first consumes it and the
second becomes machine-only. -/
theorem c1_greedy_first_fit (ws ms : List Subtitle)
    (hn : (ms.map Subtitle.index).Nodup) :
    (merge_state ws ms).1 = renderFrom 1 (spec_match ws ms) ∧
    (∀ w1 w2 h : Subtitle,
      SIMILARITY_THRESHOLD ≤ combined_score w1 h →
      SIMILARITY_THRESHOLD ≤ combined_score w2 h →
      (merge_state [w1, w2] [h]).1.map
        (fun e => (e.source, e.whisper_text, e.manual_text)) =
        [("merged", some w1.text, some h.text),
         ("whisper_only", some w2.text, none)]) := by
  constructor
  · obtain ⟨rs, rem, hgo⟩ : ∃ rs rem, spec_match_go ms.enum ws = (rs, rem) :=
      ⟨_, _, rfl⟩
    have hfull := (merge_state_full ws ms hn rs rem hgo).1
    rw [hfull]
    unfold spec_match
    rw [hgo]
  · intro w1 w2 h h1 h2
    have hf1 : find_best_match w1 [h] [] = (some h, combined_score w1 h) := by
      rw [find_best_match_eq_cfB]
      exact cfB_cons_pos (by simp)
        ⟨h1, by rw [cfB_nil]; exact combined_score_nonneg w1 h⟩
    have hf2 : find_best_match w2 [h] [h.index] = (none, 0) := by
      rw [find_best_match_eq_cfB,
        cfB_cons_mem w2 [] (List.mem_singleton_self h.index), cfB_nil]
    unfold merge_state
    rw [show ([w1, w2] : List Subtitle).foldl (matchStep [h]) ([], [], ⟨0, 0, 0, 0⟩) =
        matchStep [h] (matchStep [h] ([], [], ⟨0, 0, 0, 0⟩) w1) w2 from rfl]
    rw [matchStep_some [] ⟨0, 0, 0, 0⟩ hf1, matchStep_none _ _ hf2,
      List.foldl_cons, List.foldl_nil, manualStep_mem _ _ (List.mem_cons_self _ _)]
    simp [renderOne]

set_option maxRecDepth 1000000 in
unseal Rat.add Rat.mul Rat.inv Rat.sub in
theorem c1_greedy_first_fit_witness :
    (merge_state [⟨1, 0, 1, "ab", 1⟩] [⟨2, 0, 1, "ab", 1⟩]).1 =
      renderFrom 1 (spec_match [⟨1, 0, 1, "ab", 1⟩] [⟨2, 0, 1, "ab", 1⟩]) ∧
    (merge_state [⟨1, 0, 1, "ab", 1⟩, ⟨3, 7, 8, "ab", 2⟩] [⟨2, 0, 1, "ab", 1⟩]).1.map
        (fun e => (e.source, e.whisper_text, e.manual_text)) =
      [("merged", some "ab", some "ab"), ("whisper_only", some "ab", none)] :=
  ⟨(c1_greedy_first_fit [⟨1, 0, 1, "ab", 1⟩] [⟨2, 0, 1, "ab", 1⟩] (by decide)).1,
   (c1_greedy_first_fit [] [] (by decide)).2 ⟨1, 0, 1, "ab", 1⟩ ⟨3, 7, 8, "ab", 2⟩
     ⟨2, 0, 1, "ab", 1⟩ (by decide) (by decide)⟩

set_option maxRecDepth 1000000 in
unseal Rat.add Rat.mul Rat.inv Rat.sub in
theorem c6_counterexample :
    ¬ ((merge_subtitles [⟨1, 0, 1, "ab", 1⟩]
        [⟨1, 0, 1, "ab", 1⟩, ⟨1, 50, 51, "zz", 2⟩]).1.length =
      ([⟨1, 0, 1, "ab", 1⟩] : List Subtitle).length +
        ([⟨1, 0, 1, "ab", 1⟩, ⟨1, 50, 51, "zz", 2⟩] : List Subtitle).length -
        ((merge_subtitles [⟨1, 0, 1, "ab", 1⟩]
            [⟨1, 0, 1, "ab", 1⟩, ⟨1, 50, 51, "zz", 2⟩]).2.perfect_match +
          (merge_subtitles [⟨1, 0, 1, "ab", 1⟩]
            [⟨1, 0, 1, "ab", 1⟩, ⟨1, 50, 51, "zz", 2⟩]).2.fuzzy_match)) := by
  decide

/-- C6 (amended): provided the human entries carry pairwise distinct
index values (a duplicated index makes the code silently drop a human
entry, breaking the count), the resolved track's length equals
matched + unmatched-machine + unmatched-human as reported by the
statistics, which equals machine count + human count − matched count. -/
theorem c6_length_accounting (ws ms : List Subtitle)
    (hn : (ms.map Subtitle.index).Nodup) :
    (merge_subtitles ws ms).1.length =
      ((merge_subtitles ws ms).2.perfect_match +
        (merge_subtitles ws ms).2.fuzzy_match) +
        (merge_subtitles ws ms).2.whisper_only +
        (merge_subtitles ws ms).2.manual_only ∧
    (merge_subtitles ws ms).1.length =
      ws.length + ms.length -
        ((merge_subtitles ws ms).2.perfect_match +
          (merge_subtitles ws ms).2.fuzzy_match) := by
  obtain ⟨rs, rem, hgo⟩ : ∃ rs rem, spec_match_go ms.enum ws = (rs, rem) :=
    ⟨_, _, rfl⟩
  obtain ⟨hfull, hrem⟩ := merge_state_full ws ms hn rs rem hgo
  have hms : merge_subtitles ws ms =
      (reindexFrom 1 (sortByStart
        (renderFrom 1 (rs ++ rem.map (fun c => SMatch.humanOnly c.2)))),
       ⟨rs.countP isPairedPerfect, rs.countP isPairedFuzzy,
        rs.countP isMachineOnly, rem.length⟩) := by
    rw [merge_subtitles_eq, hfull]
  have hlen : (reindexFrom 1 (sortByStart
      (renderFrom 1 (rs ++ rem.map (fun c => SMatch.humanOnly c.2))))).length =
      rs.length + rem.length := by
    rw [reindexFrom_length, (sortByStart_perm _).length_eq, renderFrom_length,
      List.length_append, List.length_map]
  have h1 : rs.length = ws.length := by
    have := spec_go_len ws ms.enum
    rw [hgo] at this
    exact this
  have h2 : rs.countP isPairedPerfect + rs.countP isPairedFuzzy +
      rs.countP isMachineOnly = rs.length := by
    refine countP_partition rs (fun r hr => ?_)
    refine spec_go_no_human ws ms.enum r ?_
    rw [hgo]
    exact hr
  have hused : (merge_state ws ms).2.1 = (consumedOf rs).reverse := by
    rw [hfull]
  have hok := merge_state_used_ok ws ms
  have hnd : ((consumedOf rs).reverse).Nodup := by
    have := hok.1
    rwa [hused] at this
  have hsub : ∀ i ∈ (consumedOf rs).reverse, i ∈ ms.map Subtitle.index := by
    have := hok.2
    rwa [hused] at this
  have hmemlen := filter_mem_length ms hnd hn hsub
  have hsplit := filter_length_split
    (fun m : Subtitle => decide (m.index ∈ (consumedOf rs).reverse)) ms
  have hremlen : rem.length =
      (ms.filter (fun m => decide (m.index ∉ (consumedOf rs).reverse))).length := by
    rw [hrem]
    have := congrArg List.length (enum_filter_map_snd ((consumedOf rs).reverse) ms)
    rw [List.length_map] at this
    exact this
  have hnotcong : ms.filter (fun m => decide (m.index ∉ (consumedOf rs).reverse)) =
      ms.filter (fun m => !(decide (m.index ∈ (consumedOf rs).reverse))) :=
    List.filter_congr (fun m _ => by simp)
  have hcl : ((consumedOf rs).reverse).length =
      rs.countP isPairedPerfect + rs.countP isPairedFuzzy := by
    rw [List.length_reverse]
    exact consumedOf_length rs
  have hbalance : rem.length +
      (rs.countP isPairedPerfect + rs.countP isPairedFuzzy) = ms.length := by
    rw [hremlen, hnotcong, ← hcl, ← hmemlen]
    omega
  rw [hms]
  refine ⟨?_, ?_⟩
  · show (reindexFrom 1 (sortByStart
        (renderFrom 1 (rs ++ rem.map (fun c => SMatch.humanOnly c.2))))).length =
      (rs.countP isPairedPerfect + rs.countP isPairedFuzzy) +
        rs.countP isMachineOnly + rem.length
    omega
  · show (reindexFrom 1 (sortByStart
        (renderFrom 1 (rs ++ rem.map (fun c => SMatch.humanOnly c.2))))).length =
      ws.length + ms.length -
        (rs.countP isPairedPerfect + rs.countP isPairedFuzzy)
    omega

set_option maxRecDepth 1000000 in
unseal Rat.add Rat.mul Rat.inv Rat.sub in
theorem c6_length_accounting_witness :
    (merge_subtitles [⟨1, 0, 1, "ab", 1⟩] [⟨2, 0, 1, "ab", 1⟩]).1.length =
      ((merge_subtitles [⟨1, 0, 1, "ab", 1⟩] [⟨2, 0, 1, "ab", 1⟩]).2.perfect_match +
        (merge_subtitles [⟨1, 0, 1, "ab", 1⟩] [⟨2, 0, 1, "ab", 1⟩]).2.fuzzy_match) +
        (merge_subtitles [⟨1, 0, 1, "ab", 1⟩] [⟨2, 0, 1, "ab", 1⟩]).2.whisper_only +
        (merge_subtitles [⟨1, 0, 1, "ab", 1⟩] [⟨2, 0, 1, "ab", 1⟩]).2.manual_only ∧
    (merge_subtitles [⟨1, 0, 1, "ab", 1⟩] [⟨2, 0, 1, "ab", 1⟩]).1.length =
      ([⟨1, 0, 1, "ab", 1⟩] : List Subtitle).length +
        ([⟨2, 0, 1, "ab", 1⟩] : List Subtitle).length -
        ((merge_subtitles [⟨1, 0, 1, "ab", 1⟩] [⟨2, 0, 1, "ab", 1⟩]).2.perfect_match +
          (merge_subtitles [⟨1, 0, 1, "ab", 1⟩] [⟨2, 0, 1, "ab", 1⟩]).2.fuzzy_match) :=
  c6_length_accounting [⟨1, 0, 1, "ab", 1⟩] [⟨2, 0, 1, "ab", 1⟩] (by decide)
